import Mathlib

/-!
Verification development for the Hyperedge Inclusion Forest (HIF) engine.

The C sources (hif.c / hif.h) are shallowly embedded here:
machine `double` weights become exact rationals (ℚ), C arrays become
lists, the mutating insertion routine becomes a pure function returning
the updated structure, and the binary serializer is modelled over an
abstract token stream (one token per `fwrite` item).  Function names
follow the C sources.
-/

/-- A hyperedge: a vertex list (canonically sorted and deduplicated by
`normalize_vertices`) together with a weight.  Mirrors `Hyperedge` in hif.h;
the C `double` weight is modelled as an exact rational. -/
structure Hyperedge where
  verts : List Int
  weight : ℚ
deriving DecidableEq

/-- A tree node owning one hyperedge and a list of children
(mirrors `Node` in hif.h). -/
inductive Node where
  | mk (he : Hyperedge) (children : List Node)

/-- The hyperedge stored in a node. -/
def Node.he : Node → Hyperedge
  | .mk h _ => h

/-- The child list of a node. -/
def Node.children : Node → List Node
  | .mk _ c => c

/-- A forest is its list of roots (mirrors `Forest` in hif.h). -/
abbrev Forest := List Node

/-- The weight-comparison tolerance, the C constant `EPSILON = 1e-9`
in `weighted_cmp` and `verify_weight_monotonicity`. -/
def EPSILON : ℚ := 1 / 1000000000

/-- Merge-scan subset test on sorted vertex lists (mirrors `is_subset`):
walks both lists; advances both on a match, advances only `B` when its
head is smaller, fails when `A`'s head cannot occur in `B`. -/
def is_subset : List Int → List Int → Bool
  | [], _ => true
  | _ :: _, [] => false
  | a :: as, b :: bs =>
    if a = b then is_subset as bs
    else if a > b then is_subset (a :: as) bs
    else false

/-- The dominance comparator (mirrors `weighted_cmp`): returns `-1` when `A`
should be the parent, `1` when `B` should be the parent, `0` when the two
are incomparable.  Weight first (beyond `EPSILON`), then one-sided subset
containment, then vertex-count, else tie. -/
def weighted_cmp (A B : Hyperedge) : Int :=
  if A.weight > B.weight + EPSILON then -1
  else if B.weight > A.weight + EPSILON then 1
  else
    let A_in_B := is_subset A.verts B.verts
    let B_in_A := is_subset B.verts A.verts
    if B_in_A && !A_in_B then -1
    else if A_in_B && !B_in_A then 1
    else if A.verts.length > B.verts.length then -1
    else if B.verts.length > A.verts.length then 1
    else 0

/-- Append a child to a node (mirrors `node_add_child`). -/
def node_add_child (parent child : Node) : Node :=
  match parent with
  | .mk he cs => .mk he (cs ++ [child])

/-- Result of `insert_into_node`, mirroring the C return codes:
`makeChildOfNew` is `1` (the scanned root should become a child of the new
node), `insertedInto r` is `-1` (the new node was absorbed, `r` is the
updated subtree), `incomparable` is `0`. -/
inductive InsertOutcome where
  | makeChildOfNew
  | insertedInto (root : Node)
  | incomparable

/-- Result of the child scan inside `insert_into_node`: either the new node
was placed inside one child (`placedIn` carries the updated child list), or
the scan finished without placing it (`notPlaced` carries the children that
were kept and the new node together with any children it stole). -/
inductive ChildScan where
  | placedIn (children : List Node)
  | notPlaced (kept : List Node) (newn : Node)

mutual
/-- Recursive placement of `newn` under `root` (mirrors `insert_into_node`).
If `root` loses the comparison the caller must capture it (`makeChildOfNew`);
if `root` wins, attachment additionally requires `newn`'s vertex set to be a
subset of `root`'s, otherwise the pair is reported incomparable. -/
def insert_into_node (root newn : Node) : InsertOutcome :=
  match root with
  | .mk he cs =>
    let cmp := weighted_cmp he newn.he
    if cmp = 1 then .makeChildOfNew
    else if cmp = -1 then
      if ¬ (is_subset newn.he.verts he.verts) then .incomparable
      else
        match insert_into_children cs newn with
        | .placedIn cs2 => .insertedInto (.mk he cs2)
        | .notPlaced kept newn2 => .insertedInto (.mk he (kept ++ [newn2]))
    else .incomparable
termination_by structural root

/-- Left-to-right scan of a child list (the `while` loop of
`insert_into_node`): a child that loses to `newn` is stolen into `newn`'s
child list and the scan continues at the same position; a successful
recursive placement stops the scan; an incomparable child is kept. -/
def insert_into_children : List Node → Node → ChildScan
  | [], newn => .notPlaced [] newn
  | c :: cs, newn =>
    match insert_into_node c newn with
    | .makeChildOfNew => insert_into_children cs (node_add_child newn c)
    | .insertedInto c2 => .placedIn (c2 :: cs)
    | .incomparable =>
      match insert_into_children cs newn with
      | .placedIn cs2 => .placedIn (c :: cs2)
      | .notPlaced kept newn2 => .notPlaced (c :: kept) newn2
termination_by structural cs => cs
end

/-- Forest-level insertion (mirrors `forest_insert_node`): roots dominated by
`newn` are captured as its children (no subset check at this level); a root
that dominates `newn` tries to absorb it; incomparable roots are kept; if no
root absorbs the new node it is appended as a new root. -/
def forest_insert_node : Forest → Node → Forest
  | [], newn => [newn]
  | r :: rs, newn =>
    let cmp := weighted_cmp r.he newn.he
    if cmp = 1 then forest_insert_node rs (node_add_child newn r)
    else if cmp = -1 then
      match insert_into_node r newn with
      | .makeChildOfNew => forest_insert_node rs (node_add_child newn r)
      | .insertedInto r2 => r2 :: rs
      | .incomparable => r :: forest_insert_node rs newn
    else r :: forest_insert_node rs newn

/-- Ordered insertion of one integer, ascending. -/
def insert_asc (x : Int) : List Int → List Int
  | [] => [x]
  | y :: ys => if x ≤ y then x :: y :: ys else y :: insert_asc x ys

/-- Ascending sort of a vertex list (models the `qsort` call with `cmp_int`
in `normalize_vertices`; any correct sort yields the same list since integer
comparison is a total order). -/
def sort_ints : List Int → List Int
  | [] => []
  | x :: xs => insert_asc x (sort_ints xs)

/-- Remove consecutive duplicates from a sorted list (the compaction loop of
`normalize_vertices`). -/
def dedup_sorted : List Int → List Int
  | [] => []
  | [a] => [a]
  | a :: b :: rest =>
    if a = b then dedup_sorted (b :: rest) else a :: dedup_sorted (b :: rest)

/-- Canonicalize a raw vertex list: sort ascending, drop duplicates
(mirrors `normalize_vertices`). -/
def normalize_vertices (l : List Int) : List Int :=
  dedup_sorted (sort_ints l)

/-- Public insertion (mirrors `insert_hyperedge`): normalize the vertex
list; if it is empty the call is a silent no-op, otherwise a fresh childless
node is inserted. -/
def insert_hyperedge (f : Forest) (verts : List Int) (weight : ℚ) : Forest :=
  let norm := normalize_vertices verts
  if norm = [] then f
  else forest_insert_node f (.mk ⟨norm, weight⟩ [])

/-- A forest built from the empty forest by a sequence of
`insert_hyperedge` calls, one per (vertex list, weight) pair. -/
def build_forest (ops : List (List Int × ℚ)) : Forest :=
  ops.foldl (fun f p => insert_hyperedge f p.1 p.2) []

mutual
/-- Pruned subtree count at one node (mirrors `count_by_threshold_recursive`):
stops at the first node whose weight falls below the threshold. -/
def count_by_threshold_recursive (nd : Node) (threshold : ℚ) : Nat :=
  match nd with
  | .mk he cs =>
    if he.weight < threshold then 0
    else 1 + count_by_threshold_children cs threshold
termination_by structural nd

/-- Pruned subtree count over a child list. -/
def count_by_threshold_children (cs : List Node) (threshold : ℚ) : Nat :=
  match cs with
  | [] => 0
  | c :: rest =>
    count_by_threshold_recursive c threshold + count_by_threshold_children rest threshold
termination_by structural cs
end

/-- Weight-threshold count over the whole forest
(mirrors `find_by_weight_threshold`). -/
def find_by_weight_threshold (f : Forest) (threshold : ℚ) : Nat :=
  match f with
  | [] => 0
  | r :: rs => count_by_threshold_recursive r threshold + find_by_weight_threshold rs threshold

mutual
/-- Subtree node count (mirrors `count_nodes_recursive`). -/
def count_nodes_recursive (nd : Node) : Nat :=
  match nd with
  | .mk _ cs => 1 + count_nodes_list cs
termination_by structural nd

/-- Node count of a list of subtrees. -/
def count_nodes_list (cs : List Node) : Nat :=
  match cs with
  | [] => 0
  | c :: rest => count_nodes_recursive c + count_nodes_list rest
termination_by structural cs
end

/-- Total node count of a forest (mirrors `count_total_nodes`). -/
def count_total_nodes (f : Forest) : Nat := count_nodes_list f

mutual
/-- Depth of a subtree (mirrors `node_depth`): one plus the maximum child
depth. -/
def node_depth (nd : Node) : Nat :=
  match nd with
  | .mk _ cs => 1 + depth_list cs
termination_by structural nd

/-- Maximum depth over a list of subtrees (`0` for the empty list). -/
def depth_list (cs : List Node) : Nat :=
  match cs with
  | [] => 0
  | c :: rest => max (node_depth c) (depth_list rest)
termination_by structural cs
end

/-- Maximum tree depth over the forest (mirrors `forest_max_depth`). -/
def forest_max_depth (f : Forest) : Nat :=
  match f with
  | [] => 0
  | r :: rs => max (node_depth r) (forest_max_depth rs)

mutual
/-- The invariant checker of the C code (`verify_weight_monotonicity`):
every child weighs at most its parent plus `EPSILON`, recursively. -/
def verify_weight_monotonicity (nd : Node) : Bool :=
  match nd with
  | .mk he cs => verify_wm_children he.weight cs
termination_by structural nd

/-- Child-list part of `verify_weight_monotonicity`. -/
def verify_wm_children (w : ℚ) (cs : List Node) : Bool :=
  match cs with
  | [] => true
  | c :: rest =>
    (!(c.he.weight > w + EPSILON)) && verify_weight_monotonicity c && verify_wm_children w rest
termination_by structural cs
end

/-- Forest-level invariant check (mirrors `verify_forest`). -/
def verify_forest (f : Forest) : Bool :=
  match f with
  | [] => true
  | r :: rs => verify_weight_monotonicity r && verify_forest rs

mutual
/-- Pre-order collection of the hyperedges of a subtree (the payloads
gathered by `collect_all_nodes_recursive`). -/
def collect_node_hyperedges (nd : Node) : List Hyperedge :=
  match nd with
  | .mk he cs => he :: collect_list_hyperedges cs
termination_by structural nd

/-- Pre-order collection over a list of subtrees. -/
def collect_list_hyperedges (cs : List Node) : List Hyperedge :=
  match cs with
  | [] => []
  | c :: rest => collect_node_hyperedges c ++ collect_list_hyperedges rest
termination_by structural cs
end

/-- Pre-order collection over the whole forest (mirrors
`collect_all_nodes`; node identity reduces to the carried hyperedge once
child links are cleared, as both `forest_rebalance` and
`forest_merge_duplicates` do). -/
def collect_all_nodes (f : Forest) : List Hyperedge := collect_list_hyperedges f

/-- Ordered insertion by weight, descending; an element is placed after
all strictly heavier ones and after equal-weight ones already present. -/
def insert_by_weight_desc (x : Hyperedge) : List Hyperedge → List Hyperedge
  | [] => [x]
  | y :: ys => if x.weight > y.weight then x :: y :: ys else y :: insert_by_weight_desc x ys

/-- Weight-descending sort (models the `qsort` call with
`cmp_by_weight_desc` in `forest_rebalance`; ties keep their collection
order, one determinate resolution of `qsort`'s unspecified tie order). -/
def sort_by_weight_desc : List Hyperedge → List Hyperedge
  | [] => []
  | x :: xs => insert_by_weight_desc x (sort_by_weight_desc xs)

/-- Reinsert a list of hyperedges, in order, as fresh childless nodes into
an initially empty forest (the reinsertion loop of `forest_rebalance`). -/
def reinsert_all (l : List Hyperedge) : Forest :=
  l.foldl (fun acc he => forest_insert_node acc (.mk he [])) []

/-- Full rebuild (mirrors `forest_rebalance`): collect every node in
pre-order, clear all parent/child links, sort by weight descending and
reinsert sequentially. -/
def forest_rebalance (f : Forest) : Forest :=
  let all := collect_all_nodes f
  match all with
  | [] => f
  | _ :: _ => reinsert_all (sort_by_weight_desc all)

/-- Element-wise vertex-list equality (mirrors `vertices_equal`). -/
def vertices_equal : List Int → List Int → Bool
  | [], [] => true
  | a :: as, b :: bs => a = b && vertices_equal as bs
  | _, _ => false

/-- Combined weight of a duplicate group (the inner `j` loop of
`forest_merge_duplicates`): with `keep_max` the running maximum, otherwise
the arithmetic mean of the representative and its duplicates. -/
def group_weight (keep_max : Bool) (w0 : ℚ) (dups : List ℚ) : ℚ :=
  if keep_max then dups.foldl (fun acc d => if d > acc then d else acc) w0
  else if dups.length > 0 then (dups.foldl (· + ·) w0) / (dups.length + 1) else w0

/-- Weight adjustment pass of `forest_merge_duplicates` over the pre-order
hyperedge list: the first occurrence of each vertex set (an element not
marked `processed`, i.e. whose vertex set did not occur earlier) receives
the combined weight of its group; later occurrences keep their weight. -/
def adjust_weights_go (keep_max : Bool) (seen : List (List Int)) :
    List Hyperedge → List Hyperedge
  | [] => []
  | h :: rest =>
    if seen.any (fun v => vertices_equal v h.verts) then
      h :: adjust_weights_go keep_max seen rest
    else
      ⟨h.verts,
        group_weight keep_max h.weight
          ((rest.filter (fun x => vertices_equal h.verts x.verts)).map Hyperedge.weight)⟩ ::
        adjust_weights_go keep_max (h.verts :: seen) rest

/-- Weight adjustment of `forest_merge_duplicates` starting from no
processed entries. -/
def adjust_weights (keep_max : Bool) (l : List Hyperedge) : List Hyperedge :=
  adjust_weights_go keep_max [] l

/-- The `merged_count` computed by `forest_merge_duplicates`: for each
group representative, the number of later elements with an equal vertex
set. -/
def count_merged : List Hyperedge → Nat
  | [] => 0
  | h :: rest =>
    (rest.filter (fun x => vertices_equal h.verts x.verts)).length +
      count_merged (rest.filter (fun x => !(vertices_equal h.verts x.verts)))
termination_by l => l.length
decreasing_by
  simp only [List.length_cons]
  exact Nat.lt_succ_of_le (List.length_filter_le _ _)

/-- Duplicate merge (mirrors `forest_merge_duplicates`): adjusts the weight
of each group representative in place (duplicate nodes are not removed),
then rebuilds the forest when at least one duplicate was found.  Returns
the new forest and the merged count (the C return value). -/
def forest_merge_duplicates (f : Forest) (keep_max : Bool) : Forest × Nat :=
  let all := collect_all_nodes f
  if all.length ≤ 1 then (f, 0)
  else
    let m := count_merged all
    if m > 0 then (reinsert_all (sort_by_weight_desc (adjust_weights keep_max all)), m)
    else (f, m)

/-- Prune predicate (mirrors `should_prune`). -/
def should_prune (nd : Node) (threshold : ℚ) : Bool :=
  nd.he.weight < threshold

mutual
/-- Prune inside a surviving node (mirrors `prune_node_children`): a child
below the threshold is destroyed with its whole subtree and counted once;
a surviving child is pruned recursively. -/
def prune_node_children (nd : Node) (threshold : ℚ) : Node × Nat :=
  match nd with
  | .mk he cs =>
    match prune_children_list cs threshold with
    | (cs2, n) => (.mk he cs2, n)
termination_by structural nd

/-- The child-scan loop of `prune_node_children`. -/
def prune_children_list (cs : List Node) (threshold : ℚ) : List Node × Nat :=
  match cs with
  | [] => ([], 0)
  | c :: rest =>
    if should_prune c threshold then
      match prune_children_list rest threshold with
      | (rest2, n) => (rest2, n + 1)
    else
      match prune_node_children c threshold, prune_children_list rest threshold with
      | (c2, n1), (rest2, n2) => (c2 :: rest2, n1 + n2)
termination_by structural cs
end

/-- Forest-level pruning (mirrors `forest_prune_by_weight`): a root below
the threshold is destroyed with its subtree and counted once; surviving
roots are pruned recursively.  Returns the new forest and the removed
count (the C return value). -/
def forest_prune_by_weight (f : Forest) (threshold : ℚ) : Forest × Nat :=
  match f with
  | [] => ([], 0)
  | r :: rs =>
    if should_prune r threshold then
      match forest_prune_by_weight rs threshold with
      | (rs2, n) => (rs2, n + 1)
    else
      match prune_node_children r threshold, forest_prune_by_weight rs threshold with
      | (r2, n1), (rs2, n2) => (r2 :: rs2, n1 + n2)

/-- One serialized item: each `fwrite`/`fread` unit of the binary format,
an integer (`i`) or a weight (`q`). -/
inductive SerTok where
  | i (n : Int)
  | q (w : ℚ)
deriving DecidableEq

mutual
/-- Pre-order node encoder (mirrors `write_node`): vertex count, vertices,
weight, child count, then the children recursively. -/
def write_node (nd : Node) : List SerTok :=
  match nd with
  | .mk he cs =>
    .i he.verts.length :: (he.verts.map SerTok.i ++ (.q he.weight :: .i cs.length :: write_children cs))
termination_by structural nd

/-- Encoder for a list of subtrees, in order. -/
def write_children (cs : List Node) : List SerTok :=
  match cs with
  | [] => []
  | c :: rest => write_node c ++ write_children rest
termination_by structural cs
end

/-- Forest encoder (mirrors `forest_save`): root count then the roots in
pre-order. -/
def forest_save (f : Forest) : List SerTok :=
  .i f.length :: write_children f

/-- Read `n` integer tokens (the vertex-array `fread` of `read_node`). -/
def read_ints : Nat → List SerTok → Option (List Int × List SerTok)
  | 0, s => some ([], s)
  | n + 1, .i v :: s =>
    match read_ints n s with
    | some (vs, s2) => some (v :: vs, s2)
    | none => none
  | _ + 1, _ => none

mutual
/-- Pre-order node decoder (mirrors `read_node`); `fuel` bounds the
recursion depth (the C version recurses on the stream itself).  A negative
vertex count makes the C `malloc` fail, hence `none`; a negative child
count makes the C child loop run zero times, hence `toNat`.  Any stream
underflow yields `none`. -/
def read_node : Nat → List SerTok → Option (Node × List SerTok)
  | 0, _ => none
  | _ + 1, [] => none
  | fuel + 1, .i nverts :: s1 =>
    if nverts < 0 then none
    else
      match read_ints nverts.toNat s1 with
      | none => none
      | some (vs, s2) =>
        match s2 with
        | .q wt :: .i nch :: s3 =>
          match read_children fuel nch.toNat s3 with
          | none => none
          | some (cs, s4) => some (.mk ⟨vs, wt⟩ cs, s4)
        | _ => none
  | _ + 1, .q _ :: _ => none
termination_by fuel _ => (fuel, 0)

/-- Decode `n` consecutive subtrees (the child loop of `read_node`). -/
def read_children : Nat → Nat → List SerTok → Option (List Node × List SerTok)
  | _, 0, s => some ([], s)
  | fuel, n + 1, s =>
    match read_node fuel s with
    | none => none
    | some (c, s2) =>
      match read_children fuel n s2 with
      | none => none
      | some (cs, s3) => some (c :: cs, s3)
termination_by fuel n _ => (fuel, n + 1)
end

/-- Forest decoder (mirrors `forest_load`): root count then that many
pre-order subtrees; fails (no forest) on any underflow.  The fuel is the
stream length, an upper bound for the nesting depth of any stream. -/
def forest_load (s : List SerTok) : Option Forest :=
  match s with
  | .i nroots :: s1 =>
    match read_children s1.length nroots.toNat s1 with
    | some (roots, _) => some roots
    | none => none
  | _ => none

/-! Specification-side definitions, written from the spec's words, to be
compared with the code-derived definitions above. -/

/-- The dominance comparator as the specification words it (spec §4.2 /
claim C3), over vertex *sets*: weight beyond tolerance first; else, when
exactly one vertex set is contained in the other, the superset side
dominates; else the strictly larger cardinality dominates; else no
relation. Encoded with the same conventions as `weighted_cmp`
(`-1` = A dominates, `1` = B dominates, `0` = incomparable). -/
def spec_cmp (A B : Hyperedge) : Int :=
  if A.weight > B.weight + EPSILON then -1
  else if B.weight > A.weight + EPSILON then 1
  else if B.verts.toFinset ⊆ A.verts.toFinset ∧ ¬ A.verts.toFinset ⊆ B.verts.toFinset then -1
  else if A.verts.toFinset ⊆ B.verts.toFinset ∧ ¬ B.verts.toFinset ⊆ A.verts.toFinset then 1
  else if B.verts.toFinset.card < A.verts.toFinset.card then -1
  else if A.verts.toFinset.card < B.verts.toFinset.card then 1
  else 0

/-- Reference count for the threshold query (claim C5): a full linear scan
over all nodes of the forest, keeping those with weight ≥ threshold. -/
def linear_scan_count (f : Forest) (threshold : ℚ) : Nat :=
  ((collect_all_nodes f).filter (fun h => threshold ≤ h.weight)).length

mutual
/-- Tolerance-free weight monotonicity of a subtree: every child weighs at
most its parent, exactly. -/
def mono_exact_node (nd : Node) : Bool :=
  match nd with
  | .mk he cs => mono_exact_children he.weight cs
termination_by structural nd

/-- Child part of `mono_exact_node`. -/
def mono_exact_children (w : ℚ) (cs : List Node) : Bool :=
  match cs with
  | [] => true
  | c :: rest => (c.he.weight ≤ w) && mono_exact_node c && mono_exact_children w rest
termination_by structural cs
end

/-- Tolerance-free weight monotonicity of a forest. -/
def mono_exact_forest (f : Forest) : Bool :=
  match f with
  | [] => true
  | r :: rs => mono_exact_node r && mono_exact_forest rs

mutual
/-- Number of maximal pruned subtree roots strictly below a surviving node:
nodes below the threshold all of whose proper ancestors are at or above it
(claim C10). -/
def pruned_roots_in_node (nd : Node) (t : ℚ) : Nat :=
  match nd with
  | .mk _ cs => pruned_roots_in_children cs t
termination_by structural nd

/-- Child part of `pruned_roots_in_node`. -/
def pruned_roots_in_children (cs : List Node) (t : ℚ) : Nat :=
  match cs with
  | [] => 0
  | c :: rest =>
    (if c.he.weight < t then 1 else pruned_roots_in_node c t) + pruned_roots_in_children rest t
termination_by structural cs
end

/-- Number of maximal pruned subtree roots of a forest at threshold `t`. -/
def maximal_pruned_roots (f : Forest) (t : ℚ) : Nat :=
  match f with
  | [] => 0
  | r :: rs =>
    (if r.he.weight < t then 1 else pruned_roots_in_node r t) + maximal_pruned_roots rs t

mutual
/-- Whether some maximal pruned subtree root strictly below a surviving
node has at least one child (a non-empty pruned subtree, claim C10). -/
def pruned_with_child_node (nd : Node) (t : ℚ) : Bool :=
  match nd with
  | .mk _ cs => pruned_with_child_children cs t
termination_by structural nd

/-- Child part of `pruned_with_child_node`. -/
def pruned_with_child_children (cs : List Node) (t : ℚ) : Bool :=
  match cs with
  | [] => false
  | c :: rest =>
    (if c.he.weight < t then !(c.children.isEmpty) else pruned_with_child_node c t) ||
      pruned_with_child_children rest t
termination_by structural cs
end

/-- Whether some maximal pruned subtree root of the forest has at least one
child. -/
def pruned_with_child_forest (f : Forest) (t : ℚ) : Bool :=
  match f with
  | [] => false
  | r :: rs =>
    (if r.he.weight < t then !(r.children.isEmpty) else pruned_with_child_node r t) ||
      pruned_with_child_forest rs t

mutual
/-- All parent/child edges of a subtree, as (parent hyperedge, child
hyperedge) pairs (claim C2). -/
def node_edges (nd : Node) : List (Hyperedge × Hyperedge) :=
  match nd with
  | .mk he cs => cs.map (fun c => (he, c.he)) ++ edges_list cs
termination_by structural nd

/-- Edges of a list of subtrees. -/
def edges_list (cs : List Node) : List (Hyperedge × Hyperedge) :=
  match cs with
  | [] => []
  | c :: rest => node_edges c ++ edges_list rest
termination_by structural cs
end

/-- Single-chain shape test: every node has at most one child
(claim C4). -/
def is_chain (nd : Node) : Bool :=
  match nd with
  | .mk _ [] => true
  | .mk _ [c] => is_chain c
  | .mk _ (_ :: _ :: _) => false

/-- The five nested vertex sets of claim C4: `V i = [1, …, i+1]`. -/
def V (i : Fin 5) : List Int :=
  (List.range (i.val + 1)).map (fun k => (k : Int) + 1)

/-- The hyperedge of claim C4 with index `i` under the weight
assignment `w`. -/
def he_of (w : Fin 5 → ℚ) (i : Fin 5) : Hyperedge := ⟨V i, w i⟩

/-- The forest obtained by inserting the claim-C4 hyperedges in the index
order given by `l`. -/
def build_c4 (w : Fin 5 → ℚ) (l : List (Fin 5)) : Forest :=
  l.foldl (fun f i => insert_hyperedge f (V i) (w i)) []

/-- A single descending chain: `chain w i l` has root hyperedge
`he_of w i` and the indices of `l`, in order, below it. -/
def chain (w : Fin 5 → ℚ) (i : Fin 5) : List (Fin 5) → Node
  | [] => .mk (he_of w i) []
  | j :: l => .mk (he_of w i) [chain w j l]

/-- The forest holding one chain with the given indices (empty forest for
the empty index list). -/
def chainF (w : Fin 5 → ℚ) : List (Fin 5) → Forest
  | [] => []
  | i :: l => [chain w i l]

/-- Ordered insertion of an index into a descending index list. -/
def ins_desc (x : Fin 5) : List (Fin 5) → List (Fin 5)
  | [] => [x]
  | y :: l => if y < x then x :: y :: l else y :: ins_desc x l

/-- Weight monotonicity of a subtree as a proposition: every child weighs
at most its parent plus `EPSILON`, recursively (claim C1). -/
inductive WM : Node → Prop
  | mk (he : Hyperedge) (cs : List Node)
      (hw : ∀ c ∈ cs, (Node.he c).weight ≤ he.weight + EPSILON)
      (hc : ∀ c ∈ cs, WM c) : WM (.mk he cs)

/-! Infrastructure lemmas. -/

/-- Mutual induction over the nested `Node` inductive, node form. -/
theorem node_ind (P : Node → Prop) (Q : List Node → Prop)
    (h1 : ∀ he cs, Q cs → P (.mk he cs)) (h2 : Q [])
    (h3 : ∀ c cs, P c → Q cs → Q (c :: cs)) : ∀ nd, P nd :=
  fun nd => @Node.rec P Q h1 h2 h3 nd

/-- Mutual induction over the nested `Node` inductive, list form. -/
theorem nodelist_ind (P : Node → Prop) (Q : List Node → Prop)
    (h1 : ∀ he cs, Q cs → P (.mk he cs)) (h2 : Q [])
    (h3 : ∀ c cs, P c → Q cs → Q (c :: cs)) : ∀ cs, Q cs := by
  intro cs
  induction cs with
  | nil => exact h2
  | cons c rest ih => exact h3 c rest (node_ind P Q h1 h2 h3 c) ih

theorem EPSILON_pos : (0 : ℚ) < EPSILON := by norm_num [EPSILON]

theorem node_he_mk (he : Hyperedge) (cs : List Node) : (Node.mk he cs).he = he := rfl

theorem node_add_child_he (p c : Node) : (node_add_child p c).he = p.he := by
  cases p
  rfl

/-- A comparator verdict of `1` (B should be the parent) bounds A's weight. -/
theorem weighted_cmp_eq_one_weight {A B : Hyperedge} (h : weighted_cmp A B = 1) :
    A.weight ≤ B.weight + EPSILON := by
  by_cases h1 : A.weight > B.weight + EPSILON
  · simp only [weighted_cmp, if_pos h1] at h
    exact absurd h (by decide)
  · exact not_lt.mp h1

/-- A comparator verdict of `-1` (A should be the parent) bounds B's weight. -/
theorem weighted_cmp_eq_negone_weight {A B : Hyperedge} (h : weighted_cmp A B = -1) :
    B.weight ≤ A.weight + EPSILON := by
  by_cases h1 : A.weight > B.weight + EPSILON
  · have := EPSILON_pos
    linarith
  · by_cases h2 : B.weight > A.weight + EPSILON
    · simp only [weighted_cmp, if_neg h1, if_pos h2] at h
      exact absurd h (by decide)
    · exact not_lt.mp h2

/-- One-step unfolding of `insert_into_node` at a constructor. -/
theorem insert_into_node_eq (he : Hyperedge) (cs : List Node) (newn : Node) :
    insert_into_node (.mk he cs) newn =
      (if weighted_cmp he newn.he = 1 then .makeChildOfNew
       else if weighted_cmp he newn.he = -1 then
         (if ¬ (is_subset newn.he.verts he.verts) then .incomparable
          else
            match insert_into_children cs newn with
            | .placedIn cs2 => .insertedInto (.mk he cs2)
            | .notPlaced kept newn2 => .insertedInto (.mk he (kept ++ [newn2])))
       else .incomparable) := by
  rw [insert_into_node]

/-- A `makeChildOfNew` outcome can only come from a comparator verdict
of `1`. -/
theorem insert_outcome_steal {root newn : Node}
    (h : insert_into_node root newn = .makeChildOfNew) :
    weighted_cmp root.he newn.he = 1 := by
  cases root with
  | mk he cs =>
    rw [insert_into_node_eq] at h
    by_cases h1 : weighted_cmp he newn.he = 1
    · exact h1
    · rw [if_neg h1] at h
      by_cases h2 : weighted_cmp he newn.he = -1
      · rw [if_pos h2] at h
        by_cases h3 : ¬ (is_subset newn.he.verts he.verts)
        · rw [if_pos h3] at h
          cases h
        · rw [if_neg h3] at h
          cases hscan : insert_into_children cs newn <;> rw [hscan] at h <;> cases h
      · rw [if_neg h2] at h
        cases h

/-- A successful placement preserves the root's own hyperedge. -/
theorem insert_into_node_he {root newn nd2 : Node}
    (h : insert_into_node root newn = .insertedInto nd2) : nd2.he = root.he := by
  cases root with
  | mk he cs =>
    rw [insert_into_node_eq] at h
    by_cases h1 : weighted_cmp he newn.he = 1
    · rw [if_pos h1] at h
      cases h
    · rw [if_neg h1] at h
      by_cases h2 : weighted_cmp he newn.he = -1
      · rw [if_pos h2] at h
        by_cases h3 : ¬ (is_subset newn.he.verts he.verts)
        · rw [if_pos h3] at h
          cases h
        · rw [if_neg h3] at h
          cases hscan : insert_into_children cs newn <;> rw [hscan] at h <;>
            cases h <;> rfl
      · rw [if_neg h2] at h
        cases h

/-- A successful placement requires a comparator verdict of `-1` and the
subset guard. -/
theorem insert_into_node_placed_facts {root newn nd2 : Node}
    (h : insert_into_node root newn = .insertedInto nd2) :
    weighted_cmp root.he newn.he = -1 ∧ is_subset newn.he.verts root.he.verts = true := by
  cases root with
  | mk he cs =>
    rw [insert_into_node_eq] at h
    by_cases h1 : weighted_cmp he newn.he = 1
    · rw [if_pos h1] at h
      cases h
    · rw [if_neg h1] at h
      by_cases h2 : weighted_cmp he newn.he = -1
      · rw [if_pos h2] at h
        by_cases h3 : ¬ (is_subset newn.he.verts he.verts)
        · rw [if_pos h3] at h
          cases h
        · exact ⟨h2, by simpa using h3⟩
      · rw [if_neg h2] at h
        cases h

/-! Claim C1: weight monotonicity is preserved by insertion. -/

theorem WM_mk_iff (he : Hyperedge) (cs : List Node) :
    WM (.mk he cs) ↔
      (∀ c ∈ cs, (Node.he c).weight ≤ he.weight + EPSILON) ∧ (∀ c ∈ cs, WM c) := by
  constructor
  · intro h
    cases h with
    | mk _ _ hw hc => exact ⟨hw, hc⟩
  · intro ⟨hw, hc⟩
    exact WM.mk he cs hw hc

theorem WM_add_child {p c : Node} (hp : WM p) (hc : WM c)
    (hw : c.he.weight ≤ p.he.weight + EPSILON) : WM (node_add_child p c) := by
  cases p with
  | mk he cs =>
    rw [node_add_child]
    rcases (WM_mk_iff he cs).mp hp with ⟨hw0, hc0⟩
    refine (WM_mk_iff he _).mpr ⟨?_, ?_⟩
    · intro x hx
      rcases List.mem_append.mp hx with hx | hx
      · exact hw0 x hx
      · rcases List.mem_singleton.mp hx with rfl
        exact hw
    · intro x hx
      rcases List.mem_append.mp hx with hx | hx
      · exact hc0 x hx
      · rcases List.mem_singleton.mp hx with rfl
        exact hc

/-- The statement proved for the child-scan loop: under a common parent
weight bound `w`, both loop outcomes keep every node weight-monotone and
within the bound, and the travelling new node keeps its hyperedge. -/
def ScanWM (cs : List Node) : Prop :=
  ∀ (newn : Node) (w : ℚ),
    (∀ c ∈ cs, WM c) → (∀ c ∈ cs, (Node.he c).weight ≤ w + EPSILON) →
    WM newn → (Node.he newn).weight ≤ w + EPSILON →
    (∀ cs2, insert_into_children cs newn = .placedIn cs2 →
       (∀ c ∈ cs2, WM c) ∧ (∀ c ∈ cs2, (Node.he c).weight ≤ w + EPSILON)) ∧
    (∀ kept newn2, insert_into_children cs newn = .notPlaced kept newn2 →
       (∀ c ∈ kept, WM c) ∧ (∀ c ∈ kept, (Node.he c).weight ≤ w + EPSILON) ∧
         WM newn2 ∧ newn2.he = newn.he)

/-- The statement proved for node placement: a successful placement is
weight-monotone. -/
def PlaceWM (nd : Node) : Prop :=
  ∀ (newn : Node) (nd2 : Node), WM nd → WM newn →
    insert_into_node nd newn = .insertedInto nd2 → WM nd2

theorem place_WM_step :
    ∀ he cs, ScanWM cs → PlaceWM (.mk he cs) := by
  intro he cs hq newn nd2 hwm hnewn heq
  rcases (WM_mk_iff he cs).mp hwm with ⟨hw0, hc0⟩
  rcases insert_into_node_placed_facts heq with ⟨hcmp, _⟩
  rw [node_he_mk] at hcmp
  have hb : (Node.he newn).weight ≤ he.weight + EPSILON :=
    weighted_cmp_eq_negone_weight hcmp
  rw [insert_into_node_eq] at heq
  rw [if_neg (by rw [hcmp]; decide), if_pos hcmp] at heq
  by_cases h3 : ¬ (is_subset newn.he.verts he.verts)
  · rw [if_pos h3] at heq
    cases heq
  · rw [if_neg h3] at heq
    have hq2 := hq newn he.weight hc0 hw0 hnewn hb
    cases hscan : insert_into_children cs newn with
    | placedIn cs2 =>
      rw [hscan] at heq
      cases heq
      rcases hq2.1 cs2 hscan with ⟨ha, hb2⟩
      exact (WM_mk_iff he cs2).mpr ⟨hb2, ha⟩
    | notPlaced kept newn2 =>
      rw [hscan] at heq
      cases heq
      rcases hq2.2 kept newn2 hscan with ⟨ha, hb2, hwm2, hhe2⟩
      refine (WM_mk_iff he _).mpr ⟨?_, ?_⟩
      · intro x hx
        rcases List.mem_append.mp hx with hx | hx
        · exact hb2 x hx
        · rcases List.mem_singleton.mp hx with rfl
          rw [hhe2]
          exact hb
      · intro x hx
        rcases List.mem_append.mp hx with hx | hx
        · exact ha x hx
        · rcases List.mem_singleton.mp hx with rfl
          exact hwm2

theorem scan_WM_nil : ScanWM [] := by
  intro newn w _ _ hnewn hbnd
  constructor
  · intro cs2 h
    rw [insert_into_children] at h
    cases h
  · intro kept newn2 h
    rw [insert_into_children] at h
    cases h
    exact ⟨by simp, by simp, hnewn, rfl⟩

theorem scan_WM_cons :
    ∀ c cs, PlaceWM c → ScanWM cs → ScanWM (c :: cs) := by
  intro c cs hp hq newn w hcwm hcbnd hnewn hbnd
  have hcwm1 : WM c := hcwm c (List.mem_cons_self c cs)
  have hcbnd1 : (Node.he c).weight ≤ w + EPSILON := hcbnd c (List.mem_cons_self c cs)
  have hcwmr : ∀ x ∈ cs, WM x := fun x hx => hcwm x (List.mem_cons_of_mem c hx)
  have hcbndr : ∀ x ∈ cs, (Node.he x).weight ≤ w + EPSILON :=
    fun x hx => hcbnd x (List.mem_cons_of_mem c hx)
  rw [insert_into_children]
  cases hstep : insert_into_node c newn with
  | makeChildOfNew =>
    have hcmp := insert_outcome_steal hstep
    have hcb : (Node.he c).weight ≤ (Node.he newn).weight + EPSILON :=
      weighted_cmp_eq_one_weight hcmp
    have hwm2 : WM (node_add_child newn c) := WM_add_child hnewn hcwm1 hcb
    have hbnd2 : (Node.he (node_add_child newn c)).weight ≤ w + EPSILON := by
      rw [node_add_child_he]
      exact hbnd
    have hq2 := hq (node_add_child newn c) w hcwmr hcbndr hwm2 hbnd2
    constructor
    · intro cs2 h
      exact hq2.1 cs2 h
    · intro kept newn2 h
      rcases hq2.2 kept newn2 h with ⟨ha, hb2, hwm3, hhe3⟩
      rw [node_add_child_he] at hhe3
      exact ⟨ha, hb2, hwm3, hhe3⟩
  | insertedInto c2 =>
    have hwm2 : WM c2 := hp newn c2 hcwm1 hnewn hstep
    have hhe2 : c2.he = c.he := insert_into_node_he hstep
    constructor
    · intro cs2 h
      cases h
      refine ⟨?_, ?_⟩
      · intro x hx
        rcases List.mem_cons.mp hx with rfl | hx
        · exact hwm2
        · exact hcwmr x hx
      · intro x hx
        rcases List.mem_cons.mp hx with rfl | hx
        · rw [hhe2]
          exact hcbnd1
        · exact hcbndr x hx
    · intro kept newn2 h
      cases h
  | incomparable =>
    have hq2 := hq newn w hcwmr hcbndr hnewn hbnd
    cases hrec : insert_into_children cs newn with
    | placedIn cs2 =>
      rcases hq2.1 cs2 hrec with ⟨ha, hb2⟩
      constructor
      · intro cs3 h
        cases h
        refine ⟨?_, ?_⟩
        · intro x hx
          rcases List.mem_cons.mp hx with rfl | hx
          · exact hcwm1
          · exact ha x hx
        · intro x hx
          rcases List.mem_cons.mp hx with rfl | hx
          · exact hcbnd1
          · exact hb2 x hx
      · intro kept newn2 h
        cases h
    | notPlaced kept newn2 =>
      rcases hq2.2 kept newn2 hrec with ⟨ha, hb2, hwm3, hhe3⟩
      constructor
      · intro cs3 h
        cases h
      · intro kept2 newn3 h
        cases h
        refine ⟨?_, ?_, hwm3, hhe3⟩
        · intro x hx
          rcases List.mem_cons.mp hx with rfl | hx
          · exact hcwm1
          · exact ha x hx
        · intro x hx
          rcases List.mem_cons.mp hx with rfl | hx
          · exact hcbnd1
          · exact hb2 x hx

theorem place_WM : ∀ nd, PlaceWM nd :=
  node_ind PlaceWM ScanWM place_WM_step scan_WM_nil scan_WM_cons

theorem forest_insert_WM :
    ∀ (f : Forest) (newn : Node), (∀ r ∈ f, WM r) → WM newn →
      ∀ r ∈ forest_insert_node f newn, WM r := by
  intro f
  induction f with
  | nil =>
    intro newn _ hnewn r hr
    rw [forest_insert_node] at hr
    rcases List.mem_singleton.mp hr with rfl
    exact hnewn
  | cons r0 rs ih =>
    intro newn hf hnewn r hr
    have hr0 : WM r0 := hf r0 (List.mem_cons_self r0 rs)
    have hfr : ∀ x ∈ rs, WM x := fun x hx => hf x (List.mem_cons_of_mem r0 hx)
    rw [forest_insert_node] at hr
    by_cases h1 : weighted_cmp r0.he newn.he = 1
    · rw [if_pos h1] at hr
      have hcb : (Node.he r0).weight ≤ (Node.he newn).weight + EPSILON :=
        weighted_cmp_eq_one_weight h1
      exact ih (node_add_child newn r0) hfr (WM_add_child hnewn hr0 hcb) r hr
    · rw [if_neg h1] at hr
      by_cases h2 : weighted_cmp r0.he newn.he = -1
      · rw [if_pos h2] at hr
        cases hstep : insert_into_node r0 newn with
        | makeChildOfNew =>
          rw [hstep] at hr
          have hcmp := insert_outcome_steal hstep
          have hcb : (Node.he r0).weight ≤ (Node.he newn).weight + EPSILON :=
            weighted_cmp_eq_one_weight hcmp
          exact ih (node_add_child newn r0) hfr (WM_add_child hnewn hr0 hcb) r hr
        | insertedInto r2 =>
          rw [hstep] at hr
          rcases List.mem_cons.mp hr with rfl | hr
          · exact place_WM r0 newn r hr0 hnewn hstep
          · exact hfr r hr
        | incomparable =>
          rw [hstep] at hr
          rcases List.mem_cons.mp hr with rfl | hr
          · exact hr0
          · exact ih newn hfr hnewn r hr
      · rw [if_neg h2] at hr
        rcases List.mem_cons.mp hr with rfl | hr
        · exact hr0
        · exact ih newn hfr hnewn r hr

theorem insert_hyperedge_WM {f : Forest} (hf : ∀ r ∈ f, WM r)
    (verts : List Int) (w : ℚ) : ∀ r ∈ insert_hyperedge f verts w, WM r := by
  rw [insert_hyperedge]
  by_cases h : normalize_vertices verts = []
  · rw [if_pos h]
    exact hf
  · rw [if_neg h]
    refine forest_insert_WM f _ hf ?_
    exact (WM_mk_iff _ []).mpr ⟨by simp, by simp⟩

theorem build_forest_WM (ops : List (List Int × ℚ)) :
    ∀ r ∈ build_forest ops, WM r := by
  suffices h : ∀ (ops : List (List Int × ℚ)) (f : Forest), (∀ r ∈ f, WM r) →
      ∀ r ∈ ops.foldl (fun f p => insert_hyperedge f p.1 p.2) f, WM r by
    exact h ops [] (by simp)
  intro ops
  induction ops with
  | nil =>
    intro f hf
    simpa using hf
  | cons p rest ih =>
    intro f hf
    rw [List.foldl_cons]
    exact ih (insert_hyperedge f p.1 p.2) (insert_hyperedge_WM hf p.1 p.2)

theorem verify_eq_WM :
    ∀ nd, (verify_weight_monotonicity nd = true ↔ WM nd) := by
  refine node_ind (fun nd => verify_weight_monotonicity nd = true ↔ WM nd)
    (fun cs => ∀ w, (verify_wm_children w cs = true ↔
      ((∀ c ∈ cs, (Node.he c).weight ≤ w + EPSILON) ∧ (∀ c ∈ cs, WM c)))) ?_ ?_ ?_
  · intro he cs ih
    rw [verify_weight_monotonicity, WM_mk_iff, ih]
  · intro w
    rw [verify_wm_children]
    simp
  · intro c cs ihc ihcs w
    rw [verify_wm_children]
    simp only [Bool.and_eq_true, Bool.not_eq_true', decide_eq_false_iff_not, not_lt]
    constructor
    · intro ⟨⟨hle, hv⟩, hrest⟩
      rcases (ihcs w).mp hrest with ⟨ha, hb⟩
      refine ⟨?_, ?_⟩
      · intro x hx
        rcases List.mem_cons.mp hx with rfl | hx
        · exact not_lt.mp (by simpa using hle)
        · exact ha x hx
      · intro x hx
        rcases List.mem_cons.mp hx with rfl | hx
        · exact (ihc).mp hv
        · exact hb x hx
    · intro ⟨ha, hb⟩
      refine ⟨⟨?_, ?_⟩, ?_⟩
      · simpa using ha c (List.mem_cons_self c cs)
      · exact (ihc).mpr (hb c (List.mem_cons_self c cs))
      · exact (ihcs w).mpr
          ⟨fun x hx => ha x (List.mem_cons_of_mem c hx),
           fun x hx => hb x (List.mem_cons_of_mem c hx)⟩

theorem verify_forest_eq_WM :
    ∀ f : Forest, (verify_forest f = true ↔ ∀ r ∈ f, WM r) := by
  intro f
  induction f with
  | nil =>
    rw [verify_forest]
    simp
  | cons r rs ih =>
    rw [verify_forest]
    simp only [Bool.and_eq_true, ih, verify_eq_WM]
    constructor
    · intro ⟨h1, h2⟩ x hx
      rcases List.mem_cons.mp hx with rfl | hx
      · exact h1
      · exact h2 x hx
    · intro h
      exact ⟨h r (List.mem_cons_self r rs),
        fun x hx => h x (List.mem_cons_of_mem r hx)⟩

/-- C1.  Weight-monotonicity invariant: for every forest built from an
empty forest by any finite sequence of `insert_hyperedge` calls, the code's
own checker `verify_forest` succeeds, i.e. for every node of the forest
every child's weight is at most the parent's weight plus the absolute
tolerance `EPSILON = 1e-9`. -/
theorem c1_weight_monotonicity_invariant (ops : List (List Int × ℚ)) :
    verify_forest (build_forest ops) = true :=
  (verify_forest_eq_WM (build_forest ops)).mpr (build_forest_WM ops)

/-! Claim C2: structural justification. -/

/-- Concrete comparator fact used to evaluate insertions with weights 1
and 2. -/
theorem two_gt_one_add_eps : ((2 : ℚ) > 1 + EPSILON) = True := by
  norm_num [EPSILON]

/-- Concrete comparator fact used to evaluate insertions with weights 1
and 2. -/
theorem one_not_gt_two_add_eps : ((1 : ℚ) > 2 + EPSILON) = False := by
  norm_num [EPSILON]

/-- C2 counterexample: inserting the vertex set [1,2] with weight 1 and
then [3] with weight 2 puts [1,2] directly below [3] although [1,2] is not
a subset of [3] — dominance by weight alone creates the edge at root
level, so the claimed invariant fails on this forest. -/
theorem c2_counterexample :
    insert_hyperedge (insert_hyperedge [] [1, 2] 1) [3] 2 =
      [.mk ⟨[3], 2⟩ [.mk ⟨[1, 2], 1⟩ []]] ∧
    is_subset [1, 2] [3] = false := by
  constructor
  · simp [insert_hyperedge, normalize_vertices, sort_ints, insert_asc, dedup_sorted,
      forest_insert_node, weighted_cmp, node_add_child, Node.he, is_subset,
      two_gt_one_add_eps, one_not_gt_two_add_eps]
  · decide

/-- Statement proved for placement (claim C2, amended): a successfully
placed new node hangs below a parent that contains its vertex set. -/
def PlaceEdge (nd : Node) : Prop :=
  ∀ newn nd2, insert_into_node nd newn = .insertedInto nd2 →
    ∃ hp, (hp, newn.he) ∈ node_edges nd2 ∧
      is_subset (Node.he newn).verts hp.verts = true

/-- Statement proved for the child scan (claim C2, amended). -/
def ScanEdge (cs : List Node) : Prop :=
  ∀ newn : Node,
    (∀ cs2, insert_into_children cs newn = .placedIn cs2 →
       ∃ hp, (hp, newn.he) ∈ edges_list cs2 ∧
         is_subset (Node.he newn).verts hp.verts = true) ∧
    (∀ kept newn2, insert_into_children cs newn = .notPlaced kept newn2 →
       newn2.he = newn.he)

theorem place_edge_step : ∀ he cs, ScanEdge cs → PlaceEdge (.mk he cs) := by
  intro he cs hq newn nd2 heq
  rcases insert_into_node_placed_facts heq with ⟨hcmp, hsub⟩
  rw [node_he_mk] at hcmp
  rw [node_he_mk] at hsub
  rw [insert_into_node_eq, if_neg (by rw [hcmp]; decide), if_pos hcmp,
    if_neg (by simp [hsub])] at heq
  cases hscan : insert_into_children cs newn with
  | placedIn cs2 =>
    rw [hscan] at heq
    cases heq
    rcases (hq newn).1 cs2 hscan with ⟨hp, hmem, hps⟩
    exact ⟨hp, by rw [node_edges]; exact List.mem_append_right _ hmem, hps⟩
  | notPlaced kept newn2 =>
    rw [hscan] at heq
    cases heq
    have hhe := (hq newn).2 kept newn2 hscan
    refine ⟨he, ?_, hsub⟩
    rw [node_edges]
    refine List.mem_append_left _ ?_
    rw [List.map_append]
    refine List.mem_append_right _ ?_
    simp [hhe]

theorem scan_edge_nil : ScanEdge [] := by
  intro newn
  constructor
  · intro cs2 h
    rw [insert_into_children] at h
    cases h
  · intro kept newn2 h
    rw [insert_into_children] at h
    cases h
    rfl

theorem scan_edge_cons : ∀ c cs, PlaceEdge c → ScanEdge cs → ScanEdge (c :: cs) := by
  intro c cs hp hq newn
  rw [insert_into_children]
  cases hstep : insert_into_node c newn with
  | makeChildOfNew =>
    have hq2 := hq (node_add_child newn c)
    constructor
    · intro cs2 h
      rcases hq2.1 cs2 h with ⟨hpar, hmem, hps⟩
      rw [node_add_child_he] at hmem hps
      exact ⟨hpar, hmem, hps⟩
    · intro kept newn2 h
      have := hq2.2 kept newn2 h
      rw [node_add_child_he] at this
      exact this
  | insertedInto c2 =>
    constructor
    · intro cs2 h
      cases h
      rcases hp newn c2 hstep with ⟨hpar, hmem, hps⟩
      refine ⟨hpar, ?_, hps⟩
      rw [edges_list]
      exact List.mem_append_left _ hmem
    · intro kept newn2 h
      cases h
  | incomparable =>
    cases hrec : insert_into_children cs newn with
    | placedIn cs2 =>
      constructor
      · intro cs3 h
        cases h
        rcases (hq newn).1 cs2 hrec with ⟨hpar, hmem, hps⟩
        refine ⟨hpar, ?_, hps⟩
        rw [edges_list]
        exact List.mem_append_right _ hmem
      · intro kept newn2 h
        cases h
    | notPlaced kept newn2 =>
      constructor
      · intro cs3 h
        cases h
      · intro kept2 newn3 h
        cases h
        exact (hq newn).2 kept newn2 hrec

/-- C2 (amended).  Subset containment does justify every attachment of the
*newly inserted* node: whenever recursive placement absorbs the new node
into a subtree, the new node hangs below a parent whose vertex set contains
its own.  (By `c2_counterexample`, edges created by *capturing* an existing
node under the new node — a dominated root, or a child stolen during
descent — require dominance alone and need not satisfy containment.) -/
theorem c2_descent_attachment_requires_subset (nd newn nd2 : Node)
    (h : insert_into_node nd newn = .insertedInto nd2) :
    ∃ hp, (hp, newn.he) ∈ node_edges nd2 ∧
      is_subset (Node.he newn).verts hp.verts = true :=
  node_ind PlaceEdge ScanEdge place_edge_step scan_edge_nil scan_edge_cons
    nd newn nd2 h

/-- Witness for C2 (amended): inserting {1} (weight 1) into the tree rooted
at {1,2} (weight 2) places it below {1,2}, which contains it. -/
theorem c2_descent_attachment_requires_subset_witness :
    insert_into_node (.mk ⟨[1, 2], 2⟩ []) (.mk ⟨[1], 1⟩ []) =
      .insertedInto (.mk ⟨[1, 2], 2⟩ [.mk ⟨[1], 1⟩ []]) ∧
    ∃ hp, (hp, (Node.mk ⟨[1], 1⟩ []).he) ∈
        node_edges (.mk ⟨[1, 2], 2⟩ [.mk ⟨[1], 1⟩ []]) ∧
      is_subset (Node.he (.mk ⟨[1], 1⟩ [])).verts hp.verts = true := by
  have h : insert_into_node (.mk ⟨[1, 2], 2⟩ []) (.mk ⟨[1], 1⟩ []) =
      .insertedInto (.mk ⟨[1, 2], 2⟩ [.mk ⟨[1], 1⟩ []]) := by
    simp [insert_into_node, insert_into_children, weighted_cmp, Node.he, is_subset,
      two_gt_one_add_eps, one_not_gt_two_add_eps]
  exact ⟨h, c2_descent_attachment_requires_subset _ _ _ h⟩

/-! Claim C9: empty-set insertion is a silent no-op. -/

/-- C9.  Inserting a vertex list that normalizes to the empty sequence
(in particular the empty list) returns the forest unchanged: no node is
created. -/
theorem c9_empty_insert_noop (f : Forest) (verts : List Int) (w : ℚ)
    (h : normalize_vertices verts = []) : insert_hyperedge f verts w = f := by
  simp [insert_hyperedge, h]

/-- Witness for C9 at the empty vertex list. -/
theorem c9_empty_insert_noop_witness :
    normalize_vertices [] = [] ∧
      insert_hyperedge [.mk ⟨[1], 1⟩ []] [] 5 = [.mk ⟨[1], 1⟩ []] :=
  ⟨by decide, c9_empty_insert_noop [.mk ⟨[1], 1⟩ []] [] 5 (by decide)⟩

/-! Claim C3: the dominance comparator follows the specified decision
order. -/

theorem is_subset_iff :
    ∀ (b a : List Int), List.Sorted (· < ·) a → List.Sorted (· < ·) b →
      (is_subset a b = true ↔ ∀ x ∈ a, x ∈ b) := by
  intro b
  induction b with
  | nil =>
    intro a _ _
    cases a with
    | nil => simp [is_subset]
    | cons x as =>
      simp only [is_subset, List.not_mem_nil, Bool.false_eq_true, false_iff, not_forall]
      exact ⟨x, List.mem_cons_self x as, fun h => h⟩
  | cons y bs ih =>
    intro a ha hb
    rcases List.sorted_cons.mp hb with ⟨hby, hbs⟩
    cases a with
    | nil => simp [is_subset]
    | cons x as =>
      rcases List.sorted_cons.mp ha with ⟨hax, has⟩
      rw [is_subset]
      by_cases hxy : x = y
      · rw [if_pos hxy]
        rw [ih as has hbs]
        subst hxy
        constructor
        · intro h z hz
          rcases List.mem_cons.mp hz with rfl | hz
          · exact List.mem_cons_self _ _
          · exact List.mem_cons_of_mem _ (h z hz)
        · intro h z hz
          have hzx : x < z := hax z hz
          have := h z (List.mem_cons_of_mem _ hz)
          rcases List.mem_cons.mp this with rfl | hmem
          · exact absurd hzx (lt_irrefl z)
          · exact hmem
      · rw [if_neg hxy]
        by_cases hgt : x > y
        · rw [if_pos hgt]
          rw [ih (x :: as) ha hbs]
          constructor
          · intro h z hz
            exact List.mem_cons_of_mem _ (h z hz)
          · intro h z hz
            have hzy : y < z := by
              rcases List.mem_cons.mp hz with rfl | hz2
              · exact hgt
              · exact lt_trans hgt (hax z hz2)
            rcases List.mem_cons.mp (h z hz) with rfl | hmem
            · exact absurd hzy (lt_irrefl z)
            · exact hmem
        · rw [if_neg hgt]
          have hlt : x < y := lt_of_le_of_ne (not_lt.mp hgt) hxy
          constructor
          · intro h
            cases h
          · intro h
            have := h x (List.mem_cons_self x as)
            rcases List.mem_cons.mp this with rfl | hmem
            · exact absurd hlt (lt_irrefl x)
            · exact absurd hlt (not_lt.mpr (le_of_lt (hby x hmem)))

theorem is_subset_iff_toFinset {a b : List Int}
    (ha : List.Sorted (· < ·) a) (hb : List.Sorted (· < ·) b) :
    (is_subset a b = true) ↔ a.toFinset ⊆ b.toFinset := by
  rw [is_subset_iff b a ha hb]
  constructor
  · intro h x hx
    exact List.mem_toFinset.mpr (h x (List.mem_toFinset.mp hx))
  · intro h x hx
    exact List.mem_toFinset.mp (h (List.mem_toFinset.mpr hx))

theorem sorted_toFinset_card {a : List Int} (ha : List.Sorted (· < ·) a) :
    a.toFinset.card = a.length :=
  List.toFinset_card_of_nodup ha.nodup

/-- C3.  On canonical (sorted, duplicate-free) vertex lists — the only form
stored in the structure — the code comparator `weighted_cmp` decides
exactly as the specification says: weight beyond the `1e-9` tolerance
first, then one-sided subset containment with the superset dominating,
then strictly larger cardinality, and a tie on all three is reported
incomparable. -/
theorem c3_weighted_cmp_follows_spec (A B : Hyperedge)
    (hA : List.Sorted (· < ·) A.verts) (hB : List.Sorted (· < ·) B.verts) :
    weighted_cmp A B = spec_cmp A B := by
  have hsAB := is_subset_iff_toFinset hA hB
  have hsBA := is_subset_iff_toFinset hB hA
  have hcA := sorted_toFinset_card hA
  have hcB := sorted_toFinset_card hB
  by_cases h1 : A.weight > B.weight + EPSILON
  · simp [weighted_cmp, spec_cmp, h1]
  · by_cases h2 : B.weight > A.weight + EPSILON
    · simp [weighted_cmp, spec_cmp, h1, h2]
    · simp only [weighted_cmp, spec_cmp, if_neg h1, if_neg h2]
      cases hab : is_subset A.verts B.verts <;> cases hba : is_subset B.verts A.verts
      · rw [hab] at hsAB
        rw [hba] at hsBA
        simp only [Bool.false_eq_true, false_iff] at hsAB hsBA
        simp [hsAB, hsBA, ← hcA, ← hcB, Nat.lt_iff_add_one_le]
      · rw [hab] at hsAB
        rw [hba] at hsBA
        simp only [Bool.false_eq_true, false_iff, true_iff] at hsAB hsBA
        simp [hsAB, hsBA]
      · rw [hab] at hsAB
        rw [hba] at hsBA
        simp only [Bool.false_eq_true, false_iff, true_iff] at hsAB hsBA
        simp [hsAB, hsBA]
      · rw [hab] at hsAB
        rw [hba] at hsBA
        simp only [true_iff] at hsAB hsBA
        have hfin : A.verts.toFinset = B.verts.toFinset := subset_antisymm hsAB hsBA
        have hlen : A.verts.length = B.verts.length := by
          rw [← hcA, ← hcB, hfin]
        simp [hsAB, hsBA, hlen, hfin]

/-- Witness for C3 on the canonical lists [1,2] and [1,2,3]. -/
theorem c3_weighted_cmp_follows_spec_witness :
    List.Sorted (· < ·) [(1 : Int), 2] ∧ List.Sorted (· < ·) [(1 : Int), 2, 3] ∧
      weighted_cmp ⟨[1, 2], 1⟩ ⟨[1, 2, 3], 1⟩ = spec_cmp ⟨[1, 2], 1⟩ ⟨[1, 2, 3], 1⟩ :=
  ⟨by decide, by decide,
    c3_weighted_cmp_follows_spec ⟨[1, 2], 1⟩ ⟨[1, 2, 3], 1⟩ (by decide) (by decide)⟩

/-! Claim C5: threshold query exactness. -/

/-- Concrete comparator fact for weights 1 and 1 + EPSILON. -/
theorem one_not_gt_one_eps_eps : ((1 : ℚ) > (1 + EPSILON) + EPSILON) = False := by
  norm_num [EPSILON]

/-- Concrete comparator fact for weights 1 and 1 + EPSILON. -/
theorem one_lt_one_add_eps : ((1 : ℚ) < 1 + EPSILON) = True := by
  norm_num [EPSILON]

/-- Concrete filter fact for weights 1 and 1 + EPSILON. -/
theorem one_add_eps_not_le_one : ((1 : ℚ) + EPSILON ≤ 1) = False := by
  norm_num [EPSILON]

/-- C5 counterexample: the forest built by inserting [1,2] with weight 1
and then [1] with weight 1 + EPSILON satisfies the maintained tolerance
invariant, yet at threshold 1 + EPSILON the pruned query reports 0 while
the full scan finds 1 node — the claimed equality fails. -/
theorem c5_counterexample :
    find_by_weight_threshold
        (insert_hyperedge (insert_hyperedge [] [1, 2] 1) [1] (1 + EPSILON))
        (1 + EPSILON) = 0 ∧
    linear_scan_count
        (insert_hyperedge (insert_hyperedge [] [1, 2] 1) [1] (1 + EPSILON))
        (1 + EPSILON) = 1 := by
  have hbuild : insert_hyperedge (insert_hyperedge [] [1, 2] 1) [1] (1 + EPSILON) =
      [.mk ⟨[1, 2], 1⟩ [.mk ⟨[1], 1 + EPSILON⟩ []]] := by
    simp [insert_hyperedge, normalize_vertices, sort_ints, insert_asc, dedup_sorted,
      forest_insert_node, insert_into_node, insert_into_children, weighted_cmp,
      node_add_child, Node.he, is_subset, one_not_gt_one_eps_eps]
  rw [hbuild]
  constructor
  · simp only [find_by_weight_threshold, count_by_threshold_recursive, Node.he]
    norm_num [EPSILON]
  · norm_num [linear_scan_count, collect_all_nodes, collect_list_hyperedges,
      collect_node_hyperedges, List.filter, EPSILON]

theorem collect_weight_le_list :
    ∀ (cs : List Node) (w : ℚ), mono_exact_children w cs = true →
      ∀ x ∈ collect_list_hyperedges cs, x.weight ≤ w := by
  have main :=
    nodelist_ind
      (fun nd => mono_exact_node nd = true →
        ∀ x ∈ collect_node_hyperedges nd, x.weight ≤ (Node.he nd).weight)
      (fun cs => ∀ w, mono_exact_children w cs = true →
        ∀ x ∈ collect_list_hyperedges cs, x.weight ≤ w) ?_ ?_ ?_
  · exact fun cs w h => main cs w h
  · intro he cs ih h x hx
    rw [mono_exact_node] at h
    rw [collect_node_hyperedges] at hx
    rcases List.mem_cons.mp hx with rfl | hx
    · exact le_refl _
    · exact ih he.weight h x hx
  · intro w _ x hx
    rw [collect_list_hyperedges] at hx
    cases hx
  · intro c rest ihc ihrest w h x hx
    rw [mono_exact_children] at h
    simp only [Bool.and_eq_true, decide_eq_true_eq] at h
    rcases h with ⟨⟨hcw, hcm⟩, hrest⟩
    rw [collect_list_hyperedges] at hx
    rcases List.mem_append.mp hx with hx | hx
    · exact le_trans (ihc hcm x hx) hcw
    · exact ihrest w hrest x hx

theorem threshold_exact_node :
    ∀ nd, mono_exact_node nd = true → ∀ t,
      count_by_threshold_recursive nd t =
        ((collect_node_hyperedges nd).filter (fun x => t ≤ x.weight)).length := by
  refine node_ind
    (fun nd => mono_exact_node nd = true → ∀ t,
      count_by_threshold_recursive nd t =
        ((collect_node_hyperedges nd).filter (fun x => t ≤ x.weight)).length)
    (fun cs => ∀ w, mono_exact_children w cs = true → ∀ t,
      count_by_threshold_children cs t =
        ((collect_list_hyperedges cs).filter (fun x => t ≤ x.weight)).length) ?_ ?_ ?_
  · intro he cs ih h t
    rw [mono_exact_node] at h
    rw [count_by_threshold_recursive, collect_node_hyperedges]
    by_cases hlt : he.weight < t
    · rw [if_pos hlt]
      have hnil : ((he :: collect_list_hyperedges cs).filter (fun x => t ≤ x.weight)) = [] := by
        rw [List.filter_eq_nil_iff]
        intro x hx
        simp only [decide_eq_true_eq]
        rcases List.mem_cons.mp hx with rfl | hx
        · exact not_le.mpr hlt
        · exact not_le.mpr (lt_of_le_of_lt (collect_weight_le_list cs he.weight h x hx) hlt)
      rw [hnil]
      rfl
    · rw [if_neg hlt]
      rw [List.filter_cons_of_pos (by simpa using not_lt.mp hlt)]
      rw [List.length_cons, ih he.weight h t]
      omega
  · intro w _ t
    rw [count_by_threshold_children, collect_list_hyperedges]
    rfl
  · intro c rest ihc ihrest w h t
    rw [mono_exact_children] at h
    simp only [Bool.and_eq_true, decide_eq_true_eq] at h
    rcases h with ⟨⟨_, hcm⟩, hrest⟩
    rw [count_by_threshold_children, collect_list_hyperedges, List.filter_append,
      List.length_append, ihc hcm t, ihrest w hrest t]

/-- C5 (amended).  The pruned threshold query is exact on every forest
satisfying tolerance-free weight monotonicity (each child weighs at most
its parent, exactly): the pruned count equals the full linear scan count
for every threshold.  By `c5_counterexample` the 1e-9-tolerance invariant
that insertion actually maintains is not enough. -/
theorem c5_threshold_exact_of_mono (f : Forest) (t : ℚ)
    (h : mono_exact_forest f = true) :
    find_by_weight_threshold f t = linear_scan_count f t := by
  induction f with
  | nil => rfl
  | cons r rs ih =>
    rw [mono_exact_forest, Bool.and_eq_true] at h
    rw [find_by_weight_threshold, linear_scan_count, collect_all_nodes,
      collect_list_hyperedges, List.filter_append, List.length_append]
    rw [threshold_exact_node r h.1 t]
    have := ih h.2
    rw [linear_scan_count, collect_all_nodes] at this
    rw [this]

/-- Witness for C5 (amended) on a two-node strictly monotone forest at
threshold 3/2. -/
theorem c5_threshold_exact_of_mono_witness :
    mono_exact_forest [.mk ⟨[1, 2], 2⟩ [.mk ⟨[1], 1⟩ []]] = true ∧
      find_by_weight_threshold [.mk ⟨[1, 2], 2⟩ [.mk ⟨[1], 1⟩ []]] (3 / 2) =
        linear_scan_count [.mk ⟨[1, 2], 2⟩ [.mk ⟨[1], 1⟩ []]] (3 / 2) :=
  ⟨by decide, c5_threshold_exact_of_mono _ (3 / 2) (by decide)⟩

/-! Claim C10: prune return-value semantics. -/

theorem should_prune_iff (nd : Node) (t : ℚ) :
    should_prune nd t = true ↔ nd.he.weight < t := by
  simp [should_prune]

theorem count_nodes_pos (nd : Node) : 1 ≤ count_nodes_recursive nd := by
  cases nd with
  | mk he cs =>
    rw [count_nodes_recursive]
    omega

/-- Statement proved for pruning below one surviving node. -/
def PruneNode (nd : Node) : Prop :=
  ∀ t : ℚ,
    (prune_node_children nd t).2 = pruned_roots_in_node nd t ∧
    count_nodes_recursive (prune_node_children nd t).1 + (prune_node_children nd t).2 ≤
      count_nodes_recursive nd ∧
    (pruned_with_child_node nd t = true →
      count_nodes_recursive (prune_node_children nd t).1 + (prune_node_children nd t).2 <
        count_nodes_recursive nd)

/-- Statement proved for pruning a child list. -/
def PruneList (cs : List Node) : Prop :=
  ∀ t : ℚ,
    (prune_children_list cs t).2 = pruned_roots_in_children cs t ∧
    count_nodes_list (prune_children_list cs t).1 + (prune_children_list cs t).2 ≤
      count_nodes_list cs ∧
    (pruned_with_child_children cs t = true →
      count_nodes_list (prune_children_list cs t).1 + (prune_children_list cs t).2 <
        count_nodes_list cs)

theorem prune_mutual : ∀ nd, PruneNode nd := by
  refine node_ind PruneNode PruneList ?_ ?_ ?_
  · intro he cs ih t
    rcases ih t with ⟨h1, h2, h3⟩
    rw [prune_node_children]
    cases hp : prune_children_list cs t with
    | mk cs2 n =>
      rw [hp] at h1 h2 h3
      dsimp only at h1 h2 h3 ⊢
      refine ⟨?_, ?_, ?_⟩
      · rw [pruned_roots_in_node]
        exact h1
      · simp only [count_nodes_recursive]
        omega
      · intro hw
        rw [pruned_with_child_node] at hw
        have := h3 hw
        simp only [count_nodes_recursive]
        omega
  · intro t
    refine ⟨rfl, by simp [prune_children_list, count_nodes_list], ?_⟩
    intro h
    rw [pruned_with_child_children] at h
    cases h
  · intro c rest ihc ihrest t
    rcases ihrest t with ⟨h1, h2, h3⟩
    rcases ihc t with ⟨g1, g2, g3⟩
    rw [prune_children_list]
    by_cases hcw : c.he.weight < t
    · rw [if_pos ((should_prune_iff c t).mpr hcw)]
      cases hp : prune_children_list rest t with
      | mk rest2 n =>
        rw [hp] at h1 h2 h3
        dsimp only at h1 h2 h3 ⊢
        have hcpos := count_nodes_pos c
        refine ⟨?_, ?_, ?_⟩
        · rw [pruned_roots_in_children, if_pos hcw, ← h1]
          omega
        · rw [count_nodes_list]
          omega
        · intro hw
          rw [pruned_with_child_children, if_pos hcw] at hw
          rcases Bool.or_eq_true_iff.mp hw with hw | hw
          · have : 2 ≤ count_nodes_recursive c := by
              cases c with
              | mk he2 cs2 =>
                cases cs2 with
                | nil => simp [Node.children, List.isEmpty] at hw
                | cons x xs =>
                  rw [count_nodes_recursive, count_nodes_list]
                  have := count_nodes_pos x
                  omega
            rw [count_nodes_list]
            omega
          · have := h3 hw
            rw [count_nodes_list]
            omega
    · rw [if_neg (by simp [should_prune_iff, hcw])]
      cases hc2 : prune_node_children c t with
      | mk c2 n1 =>
        cases hp : prune_children_list rest t with
        | mk rest2 n2 =>
          rw [hc2] at g1 g2 g3
          rw [hp] at h1 h2 h3
          dsimp only at g1 g2 g3 h1 h2 h3 ⊢
          refine ⟨?_, ?_, ?_⟩
          · rw [pruned_roots_in_children, if_neg hcw, ← g1, ← h1]
          · rw [count_nodes_list, count_nodes_list]
            omega
          · intro hw
            rw [pruned_with_child_children, if_neg hcw] at hw
            rw [count_nodes_list, count_nodes_list]
            rcases Bool.or_eq_true_iff.mp hw with hw | hw
            · have := g3 hw
              omega
            · have := h3 hw
              omega

theorem prune_forest_facts :
    ∀ (f : Forest) (t : ℚ),
      (forest_prune_by_weight f t).2 = maximal_pruned_roots f t ∧
      count_nodes_list (forest_prune_by_weight f t).1 + (forest_prune_by_weight f t).2 ≤
        count_nodes_list f ∧
      (pruned_with_child_forest f t = true →
        count_nodes_list (forest_prune_by_weight f t).1 + (forest_prune_by_weight f t).2 <
          count_nodes_list f) := by
  intro f
  induction f with
  | nil =>
    intro t
    refine ⟨rfl, by simp [forest_prune_by_weight, count_nodes_list], ?_⟩
    intro h
    rw [pruned_with_child_forest] at h
    cases h
  | cons r rs ih =>
    intro t
    rcases ih t with ⟨h1, h2, h3⟩
    rcases prune_mutual r t with ⟨g1, g2, g3⟩
    rw [forest_prune_by_weight]
    by_cases hrw : r.he.weight < t
    · rw [if_pos ((should_prune_iff r t).mpr hrw)]
      cases hp : forest_prune_by_weight rs t with
      | mk rs2 n =>
        rw [hp] at h1 h2 h3
        dsimp only at h1 h2 h3 ⊢
        have hrpos := count_nodes_pos r
        refine ⟨?_, ?_, ?_⟩
        · rw [maximal_pruned_roots, if_pos hrw, ← h1]
          omega
        · rw [count_nodes_list]
          omega
        · intro hw
          rw [pruned_with_child_forest, if_pos hrw] at hw
          rcases Bool.or_eq_true_iff.mp hw with hw | hw
          · have : 2 ≤ count_nodes_recursive r := by
              cases r with
              | mk he2 cs2 =>
                cases cs2 with
                | nil => simp [Node.children, List.isEmpty] at hw
                | cons x xs =>
                  rw [count_nodes_recursive, count_nodes_list]
                  have := count_nodes_pos x
                  omega
            rw [count_nodes_list]
            omega
          · have := h3 hw
            rw [count_nodes_list]
            omega
    · rw [if_neg (by simp [should_prune_iff, hrw])]
      cases hc2 : prune_node_children r t with
      | mk r2 n1 =>
        cases hp : forest_prune_by_weight rs t with
        | mk rs2 n2 =>
          rw [hc2] at g1 g2 g3
          rw [hp] at h1 h2 h3
          dsimp only at g1 g2 g3 h1 h2 h3 ⊢
          refine ⟨?_, ?_, ?_⟩
          · rw [maximal_pruned_roots, if_neg hrw, ← g1, ← h1]
          · rw [count_nodes_list, count_nodes_list]
            omega
          · intro hw
            rw [pruned_with_child_forest, if_neg hrw] at hw
            rw [count_nodes_list, count_nodes_list]
            rcases Bool.or_eq_true_iff.mp hw with hw | hw
            · have := g3 hw
              omega
            · have := h3 hw
              omega

/-- C10.  The value returned by pruning is the number of maximal pruned
subtree roots (nodes below the threshold whose parent or root position
survives), not the number of destroyed nodes; and whenever some such
pruned root has a non-empty subtree, the returned value is strictly
smaller than the decrease in the total node count. -/
theorem c10_prune_count_semantics (f : Forest) (t : ℚ) :
    (forest_prune_by_weight f t).2 = maximal_pruned_roots f t ∧
    (pruned_with_child_forest f t = true →
      (forest_prune_by_weight f t).2 <
        count_total_nodes f - count_total_nodes (forest_prune_by_weight f t).1) := by
  rcases prune_forest_facts f t with ⟨h1, _, h3⟩
  refine ⟨h1, ?_⟩
  intro hw
  have := h3 hw
  rw [count_total_nodes, count_total_nodes]
  omega

/-- Witness for C10 on a three-node chain pruned at threshold 2: one
maximal pruned root with a non-empty subtree, two destroyed nodes. -/
theorem c10_prune_count_semantics_witness :
    pruned_with_child_forest
        [.mk ⟨[1, 2, 3], 3⟩ [.mk ⟨[1, 2], 1⟩ [.mk ⟨[1], 1 / 2⟩ []]]] 2 = true ∧
      (forest_prune_by_weight
          [.mk ⟨[1, 2, 3], 3⟩ [.mk ⟨[1, 2], 1⟩ [.mk ⟨[1], 1 / 2⟩ []]]] 2).2 <
        count_total_nodes [.mk ⟨[1, 2, 3], 3⟩ [.mk ⟨[1, 2], 1⟩ [.mk ⟨[1], 1 / 2⟩ []]]] -
          count_total_nodes
            (forest_prune_by_weight
              [.mk ⟨[1, 2, 3], 3⟩ [.mk ⟨[1, 2], 1⟩ [.mk ⟨[1], 1 / 2⟩ []]]] 2).1 :=
  ⟨by decide,
    (c10_prune_count_semantics
      [.mk ⟨[1, 2, 3], 3⟩ [.mk ⟨[1, 2], 1⟩ [.mk ⟨[1], 1 / 2⟩ []]]] 2).2 (by decide)⟩

/-! Claim C7: duplicate merge semantics. -/

theorem count_nodes_list_append (a b : List Node) :
    count_nodes_list (a ++ b) = count_nodes_list a + count_nodes_list b := by
  induction a with
  | nil =>
    rw [List.nil_append, count_nodes_list]
    omega
  | cons c cs ih =>
    rw [List.cons_append, count_nodes_list, count_nodes_list, ih]
    omega

theorem count_node_add_child (p c : Node) :
    count_nodes_recursive (node_add_child p c) =
      count_nodes_recursive p + count_nodes_recursive c := by
  cases p with
  | mk he cs =>
    rw [node_add_child, count_nodes_recursive, count_nodes_recursive,
      count_nodes_list_append, count_nodes_list, count_nodes_list]
    omega

/-- Statement proved for placement: node counts add up. -/
def PlaceCount (nd : Node) : Prop :=
  ∀ newn nd2, insert_into_node nd newn = .insertedInto nd2 →
    count_nodes_recursive nd2 = count_nodes_recursive nd + count_nodes_recursive newn

/-- Statement proved for the child scan: node counts add up. -/
def ScanCount (cs : List Node) : Prop :=
  ∀ newn : Node,
    (∀ cs2, insert_into_children cs newn = .placedIn cs2 →
       count_nodes_list cs2 = count_nodes_list cs + count_nodes_recursive newn) ∧
    (∀ kept newn2, insert_into_children cs newn = .notPlaced kept newn2 →
       count_nodes_list kept + count_nodes_recursive newn2 =
         count_nodes_list cs + count_nodes_recursive newn)

theorem place_count_step : ∀ he cs, ScanCount cs → PlaceCount (.mk he cs) := by
  intro he cs hq newn nd2 heq
  rcases insert_into_node_placed_facts heq with ⟨hcmp, hsub⟩
  rw [node_he_mk] at hcmp hsub
  rw [insert_into_node_eq, if_neg (by rw [hcmp]; decide), if_pos hcmp,
    if_neg (by simp [hsub])] at heq
  cases hscan : insert_into_children cs newn with
  | placedIn cs2 =>
    rw [hscan] at heq
    cases heq
    rw [count_nodes_recursive, count_nodes_recursive, (hq newn).1 cs2 hscan]
    omega
  | notPlaced kept newn2 =>
    rw [hscan] at heq
    cases heq
    have := (hq newn).2 kept newn2 hscan
    rw [count_nodes_recursive, count_nodes_recursive, count_nodes_list_append,
      count_nodes_list, count_nodes_list]
    omega

theorem scan_count_nil : ScanCount [] := by
  intro newn
  constructor
  · intro cs2 h
    rw [insert_into_children] at h
    cases h
  · intro kept newn2 h
    rw [insert_into_children] at h
    cases h
    rw [count_nodes_list]

theorem scan_count_cons : ∀ c cs, PlaceCount c → ScanCount cs → ScanCount (c :: cs) := by
  intro c cs hp hq newn
  rw [insert_into_children]
  cases hstep : insert_into_node c newn with
  | makeChildOfNew =>
    have hq2 := hq (node_add_child newn c)
    have hadd := count_node_add_child newn c
    constructor
    · intro cs2 h
      rw [hq2.1 cs2 h, hadd, count_nodes_list]
      omega
    · intro kept newn2 h
      have := hq2.2 kept newn2 h
      rw [hadd] at this
      rw [count_nodes_list]
      omega
  | insertedInto c2 =>
    have hc2 := hp newn c2 hstep
    constructor
    · intro cs2 h
      cases h
      rw [count_nodes_list, count_nodes_list, hc2]
      omega
    · intro kept newn2 h
      cases h
  | incomparable =>
    cases hrec : insert_into_children cs newn with
    | placedIn cs2 =>
      constructor
      · intro cs3 h
        cases h
        rw [count_nodes_list, count_nodes_list, (hq newn).1 cs2 hrec]
        omega
      · intro kept newn2 h
        cases h
    | notPlaced kept newn2 =>
      constructor
      · intro cs3 h
        cases h
      · intro kept2 newn3 h
        cases h
        have := (hq newn).2 kept newn2 hrec
        rw [count_nodes_list, count_nodes_list]
        omega

theorem place_count : ∀ nd, PlaceCount nd :=
  node_ind PlaceCount ScanCount place_count_step scan_count_nil scan_count_cons

theorem forest_insert_count :
    ∀ (f : Forest) (newn : Node),
      count_nodes_list (forest_insert_node f newn) =
        count_nodes_list f + count_nodes_recursive newn := by
  intro f
  induction f with
  | nil =>
    intro newn
    rw [forest_insert_node, count_nodes_list, count_nodes_list, count_nodes_list]
    omega
  | cons r rs ih =>
    intro newn
    rw [forest_insert_node]
    by_cases h1 : weighted_cmp r.he newn.he = 1
    · rw [if_pos h1, ih, count_node_add_child, count_nodes_list]
      omega
    · rw [if_neg h1]
      by_cases h2 : weighted_cmp r.he newn.he = -1
      · rw [if_pos h2]
        cases hstep : insert_into_node r newn with
        | makeChildOfNew =>
          rw [ih, count_node_add_child, count_nodes_list]
          omega
        | insertedInto r2 =>
          rw [count_nodes_list, count_nodes_list, place_count r newn r2 hstep]
          omega
        | incomparable =>
          rw [count_nodes_list, count_nodes_list, ih]
          omega
      · rw [if_neg h2, count_nodes_list, count_nodes_list, ih]
        omega

theorem reinsert_all_count (l : List Hyperedge) :
    count_nodes_list (reinsert_all l) = l.length := by
  suffices h : ∀ (l : List Hyperedge) (acc : Forest),
      count_nodes_list (l.foldl (fun acc he => forest_insert_node acc (.mk he [])) acc) =
        count_nodes_list acc + l.length by
    have h2 := h l []
    simp only [count_nodes_list] at h2
    rw [reinsert_all, h2]
    omega
  intro l
  induction l with
  | nil =>
    intro acc
    simp
  | cons x xs ih =>
    intro acc
    rw [List.foldl_cons, ih, forest_insert_count, count_nodes_recursive,
      count_nodes_list, List.length_cons]
    omega

theorem adjust_weights_go_length (keep_max : Bool) :
    ∀ (l : List Hyperedge) (seen : List (List Int)),
      (adjust_weights_go keep_max seen l).length = l.length := by
  intro l
  induction l with
  | nil =>
    intro seen
    rw [adjust_weights_go]
  | cons h rest ih =>
    intro seen
    rw [adjust_weights_go]
    by_cases hs : seen.any (fun v => vertices_equal v h.verts)
    · rw [if_pos hs, List.length_cons, List.length_cons, ih]
    · rw [if_neg hs, List.length_cons, List.length_cons, ih]

theorem sort_by_weight_desc_length (l : List Hyperedge) :
    (sort_by_weight_desc l).length = l.length := by
  have hins : ∀ (x : Hyperedge) (l : List Hyperedge),
      (insert_by_weight_desc x l).length = l.length + 1 := by
    intro x l
    induction l with
    | nil => simp [insert_by_weight_desc]
    | cons y ys ih =>
      rw [insert_by_weight_desc]
      by_cases h : x.weight > y.weight
      · simp [if_pos h]
      · simp [if_neg h, ih]
  induction l with
  | nil => rfl
  | cons x xs ih =>
    rw [sort_by_weight_desc, hins, ih, List.length_cons]

theorem count_eq_collect_length :
    ∀ cs : List Node, count_nodes_list cs = (collect_list_hyperedges cs).length := by
  refine nodelist_ind
    (fun nd => count_nodes_recursive nd = (collect_node_hyperedges nd).length)
    (fun cs => count_nodes_list cs = (collect_list_hyperedges cs).length) ?_ ?_ ?_
  · intro he cs ih
    rw [count_nodes_recursive, collect_node_hyperedges, List.length_cons, ih]
    omega
  · rfl
  · intro c rest ihc ihrest
    rw [count_nodes_list, collect_list_hyperedges, List.length_append, ihc, ihrest]

/-- C7 (amended).  `forest_merge_duplicates` never removes a node: it
assigns each duplicate group's combined weight (maximum when `keep_max`,
arithmetic mean otherwise) to the group's first node in pre-order
collection order, leaves the other group members in place with their own
weights, and rebuilds the forest when at least one duplicate was found —
so the total node count is always preserved. -/
theorem c7_merge_preserves_node_count (f : Forest) (keep_max : Bool) :
    count_total_nodes (forest_merge_duplicates f keep_max).1 = count_total_nodes f := by
  rw [forest_merge_duplicates]
  by_cases h1 : (collect_all_nodes f).length ≤ 1
  · rw [if_pos h1]
  · rw [if_neg h1]
    by_cases h2 : count_merged (collect_all_nodes f) > 0
    · rw [if_pos h2]
      dsimp only
      rw [count_total_nodes, count_total_nodes, reinsert_all_count,
        sort_by_weight_desc_length]
      rw [adjust_weights, adjust_weights_go_length]
      rw [collect_all_nodes, ← count_eq_collect_length]
    · rw [if_neg h2]

/-- C7 counterexample: after inserting the vertex set [1,2] twice (weights
1 and 2) and merging duplicates with the keep-max policy, the forest still
holds two nodes with vertex set [1,2] — the group is not collapsed to a
single node, only the representative's weight is combined. -/
theorem c7_counterexample :
    forest_merge_duplicates (insert_hyperedge (insert_hyperedge [] [1, 2] 1) [1, 2] 2) true =
      ([.mk ⟨[1, 2], 2⟩ [.mk ⟨[1, 2], 1⟩ []]], 1) ∧
    ((collect_all_nodes
        (forest_merge_duplicates
          (insert_hyperedge (insert_hyperedge [] [1, 2] 1) [1, 2] 2) true).1).filter
      (fun h => h.verts = [1, 2])).length = 2 := by
  have hbuild : insert_hyperedge (insert_hyperedge [] [1, 2] 1) [1, 2] 2 =
      [.mk ⟨[1, 2], 2⟩ [.mk ⟨[1, 2], 1⟩ []]] := by
    simp [insert_hyperedge, normalize_vertices, sort_ints, insert_asc, dedup_sorted,
      forest_insert_node, weighted_cmp, node_add_child, Node.he, is_subset,
      two_gt_one_add_eps, one_not_gt_two_add_eps]
  rw [hbuild]
  have hmerge : forest_merge_duplicates [.mk ⟨[1, 2], 2⟩ [.mk ⟨[1, 2], 1⟩ []]] true =
      ([.mk ⟨[1, 2], 2⟩ [.mk ⟨[1, 2], 1⟩ []]], 1) := by
    simp [forest_merge_duplicates, collect_all_nodes, collect_list_hyperedges,
      collect_node_hyperedges, count_merged, vertices_equal, adjust_weights,
      adjust_weights_go, group_weight, sort_by_weight_desc, insert_by_weight_desc,
      reinsert_all, forest_insert_node, insert_into_node, insert_into_children,
      weighted_cmp, node_add_child, Node.he, is_subset,
      two_gt_one_add_eps, one_not_gt_two_add_eps]
  rw [hmerge]
  refine ⟨rfl, ?_⟩
  simp [collect_all_nodes, collect_list_hyperedges, collect_node_hyperedges]

/-! Claim C8: serialization round-trip. -/

theorem read_ints_append (vs : List Int) (s : List SerTok) :
    read_ints vs.length (vs.map SerTok.i ++ s) = some (vs, s) := by
  induction vs with
  | nil => rfl
  | cons v rest ih =>
    rw [List.length_cons, List.map_cons, List.cons_append, read_ints, ih]

theorem depth_le_write_length :
    ∀ cs : List Node, depth_list cs ≤ (write_children cs).length := by
  refine nodelist_ind
    (fun nd => node_depth nd ≤ (write_node nd).length)
    (fun cs => depth_list cs ≤ (write_children cs).length) ?_ ?_ ?_
  · intro he cs ih
    rw [node_depth, write_node]
    simp only [List.length_cons, List.length_append, List.length_map]
    omega
  · simp [depth_list, write_children]
  · intro c rest ihc ihrest
    simp only [depth_list, write_children, List.length_append]
    omega

/-- Statement proved for node decoding. -/
def ReadNode (nd : Node) : Prop :=
  ∀ (fuel : Nat) (s : List SerTok), node_depth nd ≤ fuel →
    read_node fuel (write_node nd ++ s) = some (nd, s)

/-- Statement proved for child-list decoding. -/
def ReadList (cs : List Node) : Prop :=
  ∀ (fuel : Nat) (s : List SerTok), depth_list cs ≤ fuel →
    read_children fuel cs.length (write_children cs ++ s) = some (cs, s)

theorem read_node_roundtrip_aux : ∀ nd, ReadNode nd := by
  refine node_ind ReadNode ReadList ?_ ?_ ?_
  · intro he cs ih fuel s hd
    rw [node_depth] at hd
    cases fuel with
    | zero => omega
    | succ fuel2 =>
      rw [write_node, List.cons_append, read_node]
      rw [if_neg (by simp)]
      rw [List.append_assoc]
      have hverts : Int.toNat ((he.verts.length : Int)) = he.verts.length := by
        simp
      rw [hverts, read_ints_append]
      simp only [List.cons_append]
      have hch : Int.toNat ((cs.length : Int)) = cs.length := by
        simp
      rw [hch]
      have hfuel2 : depth_list cs ≤ fuel2 := by omega
      rw [ih fuel2 s hfuel2]
  · intro fuel s _
    rw [write_children, List.length_nil, List.nil_append, read_children]
  · intro c rest ihc ihrest fuel s hd
    simp only [depth_list] at hd
    rw [write_children, List.length_cons, List.append_assoc, read_children]
    simp [ihc fuel (write_children rest ++ s) (by omega), ihrest fuel s (by omega)]

/-- C8.  Serialization round-trip: decoding the pre-order encoding of any
forest (root count, then per node vertex count, vertices, weight, child
count, children recursively) restores the forest exactly — in particular
the total node count and, for every node, its vertex sequence, weight and
pre-order position. -/
theorem c8_serialization_round_trip (f : Forest) :
    forest_load (forest_save f) = some f := by
  rw [forest_save, forest_load]
  have hroots : Int.toNat ((f.length : Int)) = f.length := by simp
  rw [hroots]
  have hlist : ∀ cs : List Node, ReadList cs := by
    refine nodelist_ind ReadNode ReadList ?_ ?_ ?_
    · intro he cs ih fuel s hd
      exact read_node_roundtrip_aux (.mk he cs) fuel s hd
    · intro fuel s _
      rw [write_children, List.length_nil, List.nil_append, read_children]
    · intro c rest ihc ihrest fuel s hd
      simp only [depth_list] at hd
      rw [write_children, List.length_cons, List.append_assoc, read_children]
      simp [ihc fuel (write_children rest ++ s) (by omega), ihrest fuel s (by omega)]
  have h2 := hlist f (write_children f).length [] (depth_le_write_length f)
  rw [List.append_nil] at h2
  rw [h2]

/-! Claim C4: order independence for chains. -/

theorem c4_subsets : ∀ i j : Fin 5, i < j →
    is_subset (V i) (V j) = true ∧ is_subset (V j) (V i) = false := by decide

theorem c4_norm : ∀ i : Fin 5, normalize_vertices (V i) = V i ∧ ¬ (V i = []) := by decide

theorem c4_cmp_parent (w : Fin 5 → ℚ) (hw : StrictMono w) {i j : Fin 5} (hij : i < j) :
    weighted_cmp (he_of w j) (he_of w i) = -1 := by
  have hwi : w i < w j := hw hij
  have heps := EPSILON_pos
  simp only [weighted_cmp, he_of]
  rw [(c4_subsets i j hij).1, (c4_subsets i j hij).2]
  by_cases h1 : w j > w i + EPSILON
  · simp [h1]
  · simp [h1, (by linarith : ¬ w i > w j + EPSILON)]

theorem c4_cmp_child (w : Fin 5 → ℚ) (hw : StrictMono w) {i j : Fin 5} (hij : i < j) :
    weighted_cmp (he_of w i) (he_of w j) = 1 := by
  have hwi : w i < w j := hw hij
  have heps := EPSILON_pos
  simp only [weighted_cmp, he_of]
  rw [(c4_subsets i j hij).1, (c4_subsets i j hij).2]
  by_cases h2 : w j > w i + EPSILON
  · simp [h2, (by linarith : ¬ w i > w j + EPSILON)]
  · simp [h2, (by linarith : ¬ w i > w j + EPSILON)]

theorem chain_he (w : Fin 5 → ℚ) (i : Fin 5) (l : List (Fin 5)) :
    (chain w i l).he = he_of w i := by
  cases l <;> rfl

theorem insert_into_node_cmp_one {root newn : Node}
    (h : weighted_cmp root.he newn.he = 1) :
    insert_into_node root newn = .makeChildOfNew := by
  cases root with
  | mk he cs =>
    rw [node_he_mk] at h
    rw [insert_into_node_eq, if_pos h]

theorem chain_insert (w : Fin 5 → ℚ) (hw : StrictMono w) :
    ∀ (l : List (Fin 5)) (r x : Fin 5), List.Sorted (· > ·) (r :: l) →
      x < r → ¬ x ∈ (r :: l) →
      insert_into_node (chain w r l) (.mk (he_of w x) []) =
        .insertedInto (chain w r (ins_desc x l)) := by
  intro l
  induction l with
  | nil =>
    intro r x hs hxr hxm
    have hc := c4_cmp_parent w hw hxr
    rw [chain, insert_into_node_eq]
    simp only [Node.he]
    rw [if_neg (by rw [hc]; decide), if_pos hc]
    rw [if_neg (by simp [he_of, (c4_subsets x r hxr).1])]
    rw [insert_into_children]
    simp [ins_desc, chain]
  | cons c l2 ih =>
    intro r x hs hxr hxm
    have hs2 : List.Sorted (· > ·) (c :: l2) := (List.sorted_cons.mp hs).2
    have hxm2 : ¬ x ∈ (c :: l2) := fun h => hxm (List.mem_cons_of_mem r h)
    have hxc : x ≠ c := by
      intro h
      exact hxm2 (h ▸ List.mem_cons_self c l2)
    have hc := c4_cmp_parent w hw hxr
    rw [chain, insert_into_node_eq]
    simp only [Node.he]
    rw [if_neg (by rw [hc]; decide), if_pos hc]
    rw [if_neg (by simp [he_of, (c4_subsets x r hxr).1])]
    rw [insert_into_children]
    rcases lt_or_gt_of_ne hxc with hxlt | hxgt
    · rw [ih c x hs2 hxlt hxm2]
      rw [ins_desc, if_neg (not_lt.mpr (le_of_lt hxlt))]
      simp [chain]
    · have hsteal : insert_into_node (chain w c l2) (.mk (he_of w x) []) =
          .makeChildOfNew := by
        refine insert_into_node_cmp_one ?_
        rw [chain_he]
        simp only [Node.he]
        exact c4_cmp_child w hw hxgt
      rw [hsteal, insert_into_children]
      rw [ins_desc, if_pos hxgt]
      simp [chain, node_add_child]

theorem chainF_insert (w : Fin 5 → ℚ) (hw : StrictMono w) :
    ∀ (l : List (Fin 5)) (x : Fin 5), List.Sorted (· > ·) l → ¬ x ∈ l →
      forest_insert_node (chainF w l) (.mk (he_of w x) []) = chainF w (ins_desc x l) := by
  intro l x hs hxm
  cases l with
  | nil =>
    rw [chainF, forest_insert_node]
    simp [ins_desc, chainF, chain]
  | cons r l2 =>
    have hxr : x ≠ r := by
      intro h
      exact hxm (h ▸ List.mem_cons_self r l2)
    rw [chainF, forest_insert_node]
    rcases lt_or_gt_of_ne hxr with hlt | hgt
    · have hc := c4_cmp_parent w hw hlt
      rw [chain_he]
      simp only [Node.he]
      rw [if_neg (by rw [hc]; decide), if_pos hc]
      rw [chain_insert w hw l2 r x hs hlt hxm]
      rw [ins_desc, if_neg (not_lt.mpr (le_of_lt hlt))]
      rw [chainF]
    · have hc := c4_cmp_child w hw hgt
      rw [chain_he]
      simp only [Node.he]
      rw [if_pos hc, forest_insert_node]
      rw [ins_desc, if_pos hgt]
      simp [chainF, chain, node_add_child]

theorem mem_ins_desc (x y : Fin 5) :
    ∀ s : List (Fin 5), (y ∈ ins_desc x s ↔ y = x ∨ y ∈ s) := by
  intro s
  induction s with
  | nil => simp [ins_desc]
  | cons z zs ih =>
    rw [ins_desc]
    by_cases hzx : z < x
    · rw [if_pos hzx]
      simp
    · rw [if_neg hzx]
      simp only [List.mem_cons, ih]
      tauto

theorem ins_desc_sorted (x : Fin 5) :
    ∀ s : List (Fin 5), List.Sorted (· > ·) s → ¬ x ∈ s →
      List.Sorted (· > ·) (ins_desc x s) := by
  intro s
  induction s with
  | nil =>
    intro _ _
    simp [ins_desc]
  | cons z zs ih =>
    intro hs hxm
    rcases List.sorted_cons.mp hs with ⟨hza, hzs⟩
    have hxz : x ≠ z := by
      intro h
      exact hxm (h ▸ List.mem_cons_self z zs)
    rw [ins_desc]
    by_cases hzx : z < x
    · rw [if_pos hzx]
      refine List.sorted_cons.mpr ⟨?_, hs⟩
      intro b hb
      rcases List.mem_cons.mp hb with rfl | hb
      · exact hzx
      · exact lt_trans (hza b hb) hzx
    · rw [if_neg hzx]
      have hxz2 : x < z := lt_of_le_of_ne (not_lt.mp hzx) hxz
      refine List.sorted_cons.mpr ⟨?_, ?_⟩
      · intro b hb
        rcases (mem_ins_desc x b zs).mp hb with rfl | hb
        · exact hxz2
        · exact hza b hb
      · exact ih hzs (fun h => hxm (List.mem_cons_of_mem z h))

theorem ins_desc_perm (x : Fin 5) :
    ∀ s : List (Fin 5), (ins_desc x s).Perm (x :: s) := by
  intro s
  induction s with
  | nil => simp [ins_desc]
  | cons z zs ih =>
    rw [ins_desc]
    by_cases hzx : z < x
    · rw [if_pos hzx]
    · rw [if_neg hzx]
      exact (ih.cons z).trans (List.Perm.swap x z zs)

theorem build_chain (w : Fin 5 → ℚ) (hw : StrictMono w) :
    ∀ (l s : List (Fin 5)), List.Sorted (· > ·) s → (∀ y ∈ l, ¬ y ∈ s) → l.Nodup →
      l.foldl (fun f i => forest_insert_node f (.mk (he_of w i) [])) (chainF w s) =
        chainF w (l.foldl (fun acc i => ins_desc i acc) s) := by
  intro l
  induction l with
  | nil =>
    intro s _ _ _
    rw [List.foldl_nil, List.foldl_nil]
  | cons x l2 ih =>
    intro s hs hdisj hnd
    rw [List.foldl_cons, List.foldl_cons]
    rw [chainF_insert w hw s x hs (hdisj x (List.mem_cons_self x l2))]
    refine ih (ins_desc x s) (ins_desc_sorted x s hs (hdisj x (List.mem_cons_self x l2)))
      ?_ (List.Nodup.of_cons hnd)
    intro y hy hmem
    rcases (mem_ins_desc x y s).mp hmem with rfl | hmem
    · exact (List.nodup_cons.mp hnd).1 hy
    · exact hdisj y (List.mem_cons_of_mem x hy) hmem

theorem foldl_ins_desc_perm :
    ∀ (l s : List (Fin 5)), (l.foldl (fun acc i => ins_desc i acc) s).Perm (l ++ s) := by
  intro l
  induction l with
  | nil =>
    intro s
    simp
  | cons x l2 ih =>
    intro s
    rw [List.foldl_cons]
    refine (ih (ins_desc x s)).trans ?_
    refine (List.Perm.append_left l2 (ins_desc_perm x s)).trans ?_
    exact List.perm_middle.trans (List.Perm.refl _)

theorem foldl_ins_desc_sorted :
    ∀ (l s : List (Fin 5)), List.Sorted (· > ·) s → (∀ y ∈ l, ¬ y ∈ s) → l.Nodup →
      List.Sorted (· > ·) (l.foldl (fun acc i => ins_desc i acc) s) := by
  intro l
  induction l with
  | nil =>
    intro s hs _ _
    simpa using hs
  | cons x l2 ih =>
    intro s hs hdisj hnd
    rw [List.foldl_cons]
    refine ih (ins_desc x s) (ins_desc_sorted x s hs (hdisj x (List.mem_cons_self x l2)))
      ?_ (List.Nodup.of_cons hnd)
    intro y hy hmem
    rcases (mem_ins_desc x y s).mp hmem with rfl | hmem
    · exact (List.nodup_cons.mp hnd).1 hy
    · exact hdisj y (List.mem_cons_of_mem x hy) hmem

theorem build_c4_eq_fold (w : Fin 5 → ℚ) (l : List (Fin 5)) :
    build_c4 w l = l.foldl (fun f i => forest_insert_node f (.mk (he_of w i) [])) [] := by
  rw [build_c4]
  suffices h : ∀ (l : List (Fin 5)) (f0 : Forest),
      l.foldl (fun f i => insert_hyperedge f (V i) (w i)) f0 =
        l.foldl (fun f i => forest_insert_node f (.mk (he_of w i) [])) f0 by
    exact h l []
  intro l2
  induction l2 with
  | nil =>
    intro f0
    rfl
  | cons x xs ih =>
    intro f0
    rw [List.foldl_cons, List.foldl_cons, ← ih]
    have hstep : insert_hyperedge f0 (V x) (w x) =
        forest_insert_node f0 (.mk (he_of w x) []) := by
      rw [insert_hyperedge]
      simp [(c4_norm x).1, (c4_norm x).2, he_of]
    rw [hstep]

/-- C4.  Order independence for chains: inserting the five nested vertex
sets V 0 = [1] through V 4 = [1,…,5] with any strictly increasing weight
assignment, in any insertion order, yields a forest with exactly one root;
that root carries the 5-element vertex set and its tree is a single chain
of depth 5 holding all 5 nodes. -/
theorem c4_chain_order_independence (w : Fin 5 → ℚ) (hw : StrictMono w)
    (l : List (Fin 5)) (hl : l.Perm [0, 1, 2, 3, 4]) :
    ∃ r, build_c4 w l = [r] ∧ (Node.he r).verts.length = 5 ∧
      is_chain r = true ∧ node_depth r = 5 ∧ count_nodes_recursive r = 5 := by
  have hnd : l.Nodup := hl.nodup_iff.mpr (by decide)
  have hfold := build_chain w hw l [] (by simp) (by simp) hnd
  rw [chainF] at hfold
  have hS : l.foldl (fun acc i => ins_desc i acc) [] = ([4, 3, 2, 1, 0] : List (Fin 5)) := by
    haveI : IsAntisymm (Fin 5) (· > ·) :=
      ⟨fun a b h1 h2 => le_antisymm (le_of_lt h2) (le_of_lt h1)⟩
    have hsort1 : List.Sorted (· > ·) (l.foldl (fun acc i => ins_desc i acc) []) :=
      foldl_ins_desc_sorted l [] (by simp) (by simp) hnd
    have hsort2 : List.Sorted (· > ·) ([4, 3, 2, 1, 0] : List (Fin 5)) := by decide
    have hperm : (l.foldl (fun acc i => ins_desc i acc) []).Perm
        ([4, 3, 2, 1, 0] : List (Fin 5)) := by
      have h1 := foldl_ins_desc_perm l []
      rw [List.append_nil] at h1
      exact h1.trans (hl.trans (by decide))
    exact List.eq_of_perm_of_sorted hperm hsort1 hsort2
  rw [hS] at hfold
  rw [build_c4_eq_fold w l, hfold]
  refine ⟨chain w 4 [3, 2, 1, 0], rfl, ?_, ?_, ?_, ?_⟩
  · rw [chain_he]
    simp only [he_of]
    decide
  · simp [chain, is_chain]
  · simp [chain, node_depth, depth_list]
  · simp [chain, count_nodes_recursive, count_nodes_list]

/-- Witness for C4 with weights w i = i inserted in the order
0, 1, 2, 3, 4. -/
theorem c4_chain_order_independence_witness :
    StrictMono (fun i : Fin 5 => (i.val : ℚ)) ∧
      ∃ r, build_c4 (fun i : Fin 5 => (i.val : ℚ)) [0, 1, 2, 3, 4] = [r] ∧
        (Node.he r).verts.length = 5 ∧ is_chain r = true ∧
        node_depth r = 5 ∧ count_nodes_recursive r = 5 := by
  have hmono : StrictMono (fun i : Fin 5 => (i.val : ℚ)) := by
    intro a b hab
    dsimp only
    exact_mod_cast Fin.lt_iff_val_lt_val.mp hab
  exact ⟨hmono,
    c4_chain_order_independence (fun i : Fin 5 => (i.val : ℚ)) hmono
      [0, 1, 2, 3, 4] (List.Perm.refl _)⟩
